import Mathlib

/-!
Shallow embedding of the race-attack engine of `burp-mcp-server`
(package `internal/tools`, files `race_request.go` and `normalize.go`,
and `internal/burp/parser.go`).

Go strings and byte slices are modelled as `List Char` (one `Char` per
byte); machine integers as `Int`/`Nat` with explicit 64-bit range checks
where `strconv` enforces them.  Fallible operations return `Option`.
-/

namespace BurpRace

/-! ### Basic string helpers (models of the `strings` package functions used) -/

/-- Model of ASCII whitespace as trimmed by `strings.TrimSpace`
(the inputs handled by this engine are byte-level ASCII). -/
def isSpaceB (c : Char) : Bool :=
  c = ' ' || c = '\t' || c = '\n' || c = '\x0b' || c = '\x0c' || c = '\r'

/-- Right trim: drop trailing whitespace. -/
def trimRight (s : List Char) : List Char :=
  (s.reverse.dropWhile isSpaceB).reverse

/-- Model of `strings.TrimSpace`. -/
def trimSpace (s : List Char) : List Char :=
  trimRight (s.dropWhile isSpaceB)

/-- Model of `strings.ToLower` (ASCII-level, via `Char.toLower`). -/
def lowerL (s : List Char) : List Char := s.map Char.toLower

/-- `startsWithL s pat`: model of `strings.HasPrefix s pat`. -/
def startsWithL : List Char → List Char → Bool
  | _, [] => true
  | [], _ :: _ => false
  | c :: s, p :: ps => c = p && startsWithL s ps

/-- Model of `strings.HasSuffix s pat`. -/
def endsWithL (s pat : List Char) : Bool :=
  startsWithL s.reverse pat.reverse

/-- Model of `strings.Contains s pat` (substring containment). -/
def containsL : List Char → List Char → Bool
  | [], pat => startsWithL [] pat
  | c :: s, pat => startsWithL (c :: s) pat || containsL s pat

/-! ### Line reading (model of `bufio.Reader.ReadString('\n')`)

`splitAtNewline s = some (line, rest)` when `s` contains a newline:
`line` includes the terminating `'\n'`.  `none` models the EOF error
(`ReadString` then returns everything read so far together with the error). -/

def splitAtNewline : List Char → Option (List Char × List Char)
  | [] => none
  | c :: cs =>
    if c = '\n' then some ([c], cs)
    else
      match splitAtNewline cs with
      | some (l, r) => some (c :: l, r)
      | none => none

theorem splitAtNewline_eq_append {s l r : List Char}
    (h : splitAtNewline s = some (l, r)) : s = l ++ r := by
  induction s generalizing l r with
  | nil => simp [splitAtNewline] at h
  | cons c cs ih =>
    simp only [splitAtNewline] at h
    by_cases hc : c = '\n'
    · simp [hc] at h
      simp [← h.1, ← h.2, hc]
    · simp only [hc, if_false] at h
      cases hsp : splitAtNewline cs with
      | none => rw [hsp] at h; simp at h
      | some p =>
        rw [hsp] at h
        obtain ⟨l', r'⟩ := p
        simp at h
        have := ih (l := l') (r := r') hsp
        simp [← h.1, ← h.2, this]

theorem splitAtNewline_ne_nil {s l r : List Char}
    (h : splitAtNewline s = some (l, r)) : l ≠ [] := by
  cases s with
  | nil => simp [splitAtNewline] at h
  | cons c cs =>
    simp only [splitAtNewline] at h
    by_cases hc : c = '\n'
    · simp [hc] at h; simp [← h.1]
    · simp only [hc, if_false] at h
      cases hsp : splitAtNewline cs with
      | none => rw [hsp] at h; simp at h
      | some p => rw [hsp] at h; obtain ⟨l', r'⟩ := p; simp at h; simp [← h.1]

theorem splitAtNewline_rest_lt {s l r : List Char}
    (h : splitAtNewline s = some (l, r)) : r.length < s.length := by
  have he := splitAtNewline_eq_append h
  have hn := splitAtNewline_ne_nil h
  subst he
  simp only [List.length_append]
  have : 0 < l.length := List.length_pos.mpr hn
  omega

/-- Computation rule: a leading newline-free segment followed by `'\n'`. -/
theorem splitAtNewline_append (l r : List Char) (hl : '\n' ∉ l) :
    splitAtNewline (l ++ '\n' :: r) = some (l ++ ['\n'], r) := by
  induction l with
  | nil => simp [splitAtNewline]
  | cons c cs ih =>
    have hc : c ≠ '\n' := fun h => hl (h ▸ List.mem_cons_self c cs)
    have hcs : '\n' ∉ cs := fun h => hl (List.mem_cons_of_mem c h)
    simp only [List.cons_append, splitAtNewline, hc, if_false]
    rw [show cs.append ('\n' :: r) = cs ++ '\n' :: r from rfl, ih hcs]

/-- No newline at all: `ReadString` hits EOF. -/
theorem splitAtNewline_eq_none (s : List Char) (hs : '\n' ∉ s) :
    splitAtNewline s = none := by
  induction s with
  | nil => rfl
  | cons c cs ih =>
    have hc : c ≠ '\n' := fun h => hs (h ▸ List.mem_cons_self c cs)
    have hcs : '\n' ∉ cs := fun h => hs (List.mem_cons_of_mem c h)
    simp [splitAtNewline, hc, ih hcs]

/-! ### Numeric conversion (models of `strconv` and `fmt.Sprintf("%d")`) -/

/-- Value of a decimal digit character. -/
def decDigVal (c : Char) : Option Nat :=
  if '0' ≤ c ∧ c ≤ '9' then some (c.toNat - '0'.toNat) else none

/-- Value of a hexadecimal digit character (both cases, as `strconv.ParseInt` base 16). -/
def hexDigVal (c : Char) : Option Nat :=
  if '0' ≤ c ∧ c ≤ '9' then some (c.toNat - '0'.toNat)
  else if 'a' ≤ c ∧ c ≤ 'f' then some (c.toNat - 'a'.toNat + 10)
  else if 'A' ≤ c ∧ c ≤ 'F' then some (c.toNat - 'A'.toNat + 10)
  else none

def digitsValAux (dv : Char → Option Nat) (base : Nat) : List Char → Nat → Option Nat
  | [], acc => some acc
  | c :: cs, acc =>
    match dv c with
    | none => none
    | some d => digitsValAux dv base cs (acc * base + d)

/-- Unsigned digit-string value; `none` on empty input or a non-digit. -/
def digitsVal (dv : Char → Option Nat) (base : Nat) : List Char → Option Nat
  | [] => none
  | c :: cs => digitsValAux dv base (c :: cs) 0

/-- Largest `int64`, the overflow cutoff of `strconv.ParseInt` with bitSize 64
(and of `strconv.Atoi` on a 64-bit platform). -/
def maxInt64 : Nat := 2 ^ 63 - 1

/-- Model of `strconv.ParseInt(s, base, 64)`: optional sign, digit run,
64-bit range check; `none` models any returned error. -/
def parseIntBase (dv : Char → Option Nat) (base : Nat) (s : List Char) : Option Int :=
  match s with
  | [] => none
  | c :: r =>
    if c = '+' then
      (digitsVal dv base r).bind fun n =>
        if n ≤ maxInt64 then some (Int.ofNat n) else none
    else if c = '-' then
      (digitsVal dv base r).bind fun n =>
        if n ≤ 2 ^ 63 then some (-(Int.ofNat n)) else none
    else
      (digitsVal dv base (c :: r)).bind fun n =>
        if n ≤ maxInt64 then some (Int.ofNat n) else none

/-- Model of `strconv.Atoi`. -/
def atoiL (s : List Char) : Option Int := parseIntBase decDigVal 10 s

/-- Model of `strconv.ParseInt(s, 16, 64)` as used on chunk-size lines. -/
def parseHex64 (s : List Char) : Option Int := parseIntBase hexDigVal 16 s

/-- Digit-emitting loop for base conversion.  The first argument is
structural fuel (any bound on the number of digits; callers pass `n`,
which always suffices since the value shrinks by a factor `b ≥ 2` each step). -/
def natToBaseCore (b : Nat) : Nat → Nat → List Char → List Char
  | 0, _, acc => acc
  | fuel + 1, n, acc =>
    if n = 0 then acc
    else natToBaseCore b fuel (n / b) (Nat.digitChar (n % b) :: acc)

/-- Decimal rendering of a natural number: model of `fmt.Sprintf("%d", n)` for `n ≥ 0`. -/
def natToDec (n : Nat) : List Char :=
  if n = 0 then ['0'] else natToBaseCore 10 n n []

/-- Lowercase hexadecimal rendering, as produced by standard chunked encoders. -/
def natToHex (n : Nat) : List Char :=
  if n = 0 then ['0'] else natToBaseCore 16 n n []

/-! ### Request preparer (`normalize.go` and `fixContentLength` of `race_request.go`) -/

/-- Model of `strings.ReplaceAll(raw, "\r\n", "\n")`: left-to-right,
non-overlapping replacement. -/
def dropCRLF : List Char → List Char
  | [] => []
  | [c] => [c]
  | c1 :: c2 :: rest =>
    if c1 = '\r' ∧ c2 = '\n' then '\n' :: dropCRLF rest
    else c1 :: dropCRLF (c2 :: rest)

/-- Model of `strings.ReplaceAll(s, "\n", "\r\n")`. -/
def expandLF : List Char → List Char
  | [] => []
  | c :: rest => if c = '\n' then '\r' :: '\n' :: expandLF rest else c :: expandLF rest

/-- The CRLF pair and the header/body separator, as character lists. -/
def crlf : List Char := ['\r', '\n']

def sepCRLF2 : List Char := ['\r', '\n', '\r', '\n']

/-- Model of `normalizeRawRequest` (`normalize.go`): normalize all line endings
to CRLF and ensure the request ends with the double-CRLF terminator. -/
def normalizeRawRequest (raw : List Char) : List Char :=
  let s := expandLF (dropCRLF raw)
  if endsWithL s sepCRLF2 then s
  else if endsWithL s crlf then s ++ crlf
  else s ++ sepCRLF2

/-- Model of `strings.Index(raw, "\r\n\r\n")` followed by the two slicings:
splits at the first (leftmost) occurrence of the separator, which is dropped. -/
def splitFirstSep : List Char → Option (List Char × List Char)
  | [] => none
  | c :: rest =>
    if startsWithL (c :: rest) sepCRLF2 then some ([], rest.drop 3)
    else
      match splitFirstSep rest with
      | some (h, b) => some (c :: h, b)
      | none => none

/-- Model of `strings.Split(s, "\r\n")` (left-to-right, non-overlapping). -/
def splitOnCRLF : List Char → List (List Char)
  | [] => [[]]
  | [c] => [[c]]
  | c1 :: c2 :: rest =>
    if c1 = '\r' ∧ c2 = '\n' then [] :: splitOnCRLF rest
    else
      match splitOnCRLF (c2 :: rest) with
      | [] => [[c1]]
      | l :: ls => (c1 :: l) :: ls

/-- Model of `strings.Join(lines, "\r\n")`. -/
def joinCRLF (lines : List (List Char)) : List Char :=
  (lines.intersperse crlf).foldr (· ++ ·) []

/-- The corrected header line `fmt.Sprintf("Content-Length: %d", n)`. -/
def clHeaderLine (n : Nat) : List Char :=
  "Content-Length: ".data ++ natToDec n

/-- The `Content-Length` test of the header-rebuilding loop
(`strings.HasPrefix(strings.ToLower(line), "content-length:")`). -/
def isCLline (line : List Char) : Bool :=
  startsWithL (lowerL line) ("content-length:".data)

/-- One step of the header-rebuilding loop of `fixContentLength`. -/
def fixCLStep (bodyLen : Nat) (acc : List (List Char) × Bool) (line : List Char) :
    List (List Char) × Bool :=
  if isCLline line then
    (acc.1 ++ [clHeaderLine bodyLen], true)
  else
    (acc.1 ++ [line], acc.2)

/-- Model of `fixContentLength` (`race_request.go`): recompute the
`Content-Length` header to match the byte length of the body section. -/
def fixContentLength (raw : List Char) : List Char :=
  match splitFirstSep raw with
  | none => raw
  | some (headerSection, body) =>
    let lines := splitOnCRLF headerSection
    let rb := lines.foldl (fixCLStep body.length) ([], false)
    let rebuilt := if !rb.2 && body.length > 0 then rb.1 ++ [clHeaderLine body.length] else rb.1
    joinCRLF rebuilt ++ sepCRLF2 ++ body

/-- The full request preparation pipeline of `raceRequestHandler`
(lines 114–115 of `race_request.go`). -/
def prepareRequest (raw : List Char) : List Char :=
  fixContentLength (normalizeRawRequest raw)

/-! ### Response reader (`readHTTPResponse`, `readChunkedBody`, `readFull`) -/

/-- Model of `readFull(reader, buf)` over a finite stream: returns the bytes
actually read, whether a read error occurred (the stream ended before `n`
bytes), and the remaining stream. -/
def readFull (n : Nat) (s : List Char) : List Char × Bool × List Char :=
  (s.take n, decide (s.length < n), s.drop n)

/-- Chunked-body decoding loop (`readChunkedBody`).  Result: `some (body, errored)`
mirrors the Go `(string, error)` pair; `none` models a runtime panic
(`make([]byte, size)` with a negative parsed size) or exhausted fuel.
The first argument is structural fuel; each iteration consumes at least one
stream byte, so `length + 1` always suffices. -/
def readChunkedBodyCore : Nat → List Char → Option (List Char × Bool)
  | 0, _ => none
  | fuel + 1, s =>
    match splitAtNewline s with
    | none => some ([], true)
    | some (sizeLine, r1) =>
      match parseHex64 (trimSpace sizeLine) with
      | none => some ([], false)
      | some size =>
        if size = 0 then some ([], false)
        else if size < 0 then none
        else
          let n := size.toNat
          let rd := readFull n r1
          if rd.2.1 then some (rd.1, true)
          else
            let r3 := match splitAtNewline rd.2.2 with
              | some (_, r) => r
              | none => []
            match readChunkedBodyCore fuel r3 with
            | none => none
            | some (restBody, e) => some (rd.1 ++ restBody, e)

def readChunkedBody (s : List Char) : Option (List Char × Bool) :=
  readChunkedBodyCore (s.length + 1) s

/-- The two hard failure points of `readHTTPResponse` (an error on the status
line, or an error while reading header lines).  In the stream model the only
read failure is end of input, whose Go error text is `"EOF"`. -/
inductive RdErr where
  | statusLineErr
  | headersErr
deriving DecidableEq

instance {ε α : Type} [DecidableEq ε] [DecidableEq α] : DecidableEq (Except ε α) := fun x y =>
  match x, y with
  | .ok a, .ok b =>
    if h : a = b then isTrue (by rw [h]) else isFalse (by intro hc; cases hc; exact h rfl)
  | .error a, .error b =>
    if h : a = b then isTrue (by rw [h]) else isFalse (by intro hc; cases hc; exact h rfl)
  | .ok _, .error _ => isFalse (by intro hc; cases hc)
  | .error _, .ok _ => isFalse (by intro hc; cases hc)

def rdErrText : RdErr → List Char
  | .statusLineErr => "reading status line: EOF".data
  | .headersErr => "reading headers: EOF".data

/-- Header-reading loop of `readHTTPResponse`: echoes every line read,
tracks `contentLength` (last parseable `Content-Length` wins) and the
`chunked` flag, and stops at the first blank line.  `none` models the
error return (`reading headers: ...`) or exhausted fuel. -/
def readHeadersCore : Nat → List Char → Int → Bool → Option (List Char × Int × Bool × List Char)
  | 0, _, _, _ => none
  | fuel + 1, s, cl, ch =>
    match splitAtNewline s with
    | none => none
    | some (line, r) =>
      let t := trimSpace line
      if t = [] then some (line, cl, ch, r)
      else
        let lower := lowerL t
        let cl' := if startsWithL lower "content-length:".data then
            match atoiL (trimSpace (t.drop 15)) with
            | some v => v
            | none => cl
          else cl
        let ch' := if startsWithL lower "transfer-encoding:".data then
            (ch || containsL (lowerL (trimSpace (t.drop 18))) "chunked".data)
          else ch
        match readHeadersCore fuel r cl' ch' with
        | none => none
        | some (echo, c2, h2, rest) => some (line ++ echo, c2, h2, rest)

/-- Model of `readHTTPResponse`: status line, header loop, then body framing
(chunked decoding, `Content-Length`-bounded read, or no body). -/
def readHTTPResponse (s : List Char) : Option (Except RdErr (List Char)) :=
  match splitAtNewline s with
  | none => some (.error .statusLineErr)
  | some (statusLine, r1) =>
    match readHeadersCore (r1.length + 1) r1 (-1) false with
    | none => some (.error .headersErr)
    | some (hdrEcho, cl, ch, r2) =>
      if ch then
        match readChunkedBody r2 with
        | none => none
        | some (body, e) =>
          if e then some (.ok (statusLine ++ hdrEcho))
          else some (.ok (statusLine ++ hdrEcho ++ body))
      else if cl > 0 then
        let rd := readFull cl.toNat r2
        if rd.2.1 && rd.1.isEmpty then some (.ok (statusLine ++ hdrEcho))
        else some (.ok (statusLine ++ hdrEcho ++ rd.1))
      else some (.ok (statusLine ++ hdrEcho))

/-! ### Response parser (`internal/burp/parser.go`, `ParseHTTPResponse`) -/

/-- Model of `strings.Index(raw, "\n\n")` plus the two slicings. -/
def splitFirstLF2 : List Char → Option (List Char × List Char)
  | '\n' :: '\n' :: rest => some ([], rest)
  | c :: rest =>
    match splitFirstLF2 rest with
    | some (h, b) => some (c :: h, b)
    | none => none
  | [] => none

/-- Split at the first `':'` (model of `strings.Index(line, ":")` plus slicings). -/
def splitFirstColon : List Char → Option (List Char × List Char)
  | ':' :: rest => some ([], rest)
  | c :: rest =>
    match splitFirstColon rest with
    | some (h, b) => some (c :: h, b)
    | none => none
  | [] => none

/-- Split at the first `' '`. -/
def splitFirstSpace : List Char → Option (List Char × List Char)
  | ' ' :: rest => some ([], rest)
  | c :: rest =>
    match splitFirstSpace rest with
    | some (h, b) => some (c :: h, b)
    | none => none
  | [] => none

/-- The second element of `strings.SplitN(s, " ", 3)`, when it exists
(`len(parts) >= 2`, i.e. `s` contains at least one space). -/
def secondTok (s : List Char) : Option (List Char) :=
  match splitFirstSpace s with
  | none => none
  | some (_, rest) =>
    match splitFirstSpace rest with
    | none => some rest
    | some (t, _) => some t

/-- The headers map of `ParsedHTTPResponse`, modelled as an association list
with in-place replacement (Go map assignment: last occurrence wins). -/
abbrev HeadersMap : Type := List (List Char × List Char)

def setKV (m : HeadersMap) (k v : List Char) : HeadersMap :=
  if m.any (fun p => p.1 = k) then m.map (fun p => if p.1 = k then (k, v) else p)
  else m ++ [(k, v)]

structure ParsedHTTPResponse where
  StatusCode : Int
  StatusLine : List Char
  Headers : HeadersMap
  Body : List Char
  BodySize : Nat
  Truncated : Bool
deriving DecidableEq

/-- `colonIdx > 0` handling of one trimmed header line. -/
def addColonKV (m : HeadersMap) (t : List Char) : HeadersMap :=
  match splitFirstColon t with
  | some (k, v) => if k = [] then m else setKV m (trimSpace k) (trimSpace v)
  | none => m

/-- Header-parsing loop of `ParseHTTPResponse` (bufio reads over the header
section; the only read error in the model is EOF, which the loop tolerates). -/
def parseHdrCore : Nat → List Char → HeadersMap → HeadersMap
  | 0, _, m => m
  | fuel + 1, s, m =>
    match splitAtNewline s with
    | none =>
      let t := trimSpace s
      if t = [] then m else addColonKV m t
    | some (line, r) =>
      let t := trimSpace line
      if t = [] then parseHdrCore fuel r m
      else parseHdrCore fuel r (addColonKV m t)

/-- Model of `burp.ParseHTTPResponse(raw, bodyOffset, bodyLimit)`:
`none` models the `nil` return on empty input. -/
def ParseHTTPResponse (raw : List Char) (bodyOffset bodyLimit : Int) :
    Option ParsedHTTPResponse :=
  if raw = [] then none
  else
    let hb :=
      match splitFirstSep raw with
      | some (h, b) => (h, b)
      | none =>
        match splitFirstLF2 raw with
        | some (h, b) => (h, b)
        | none => (raw, [])
    let headerSection := hb.1
    let bodyBytes := hb.2
    let sl :=
      match splitAtNewline headerSection with
      | some (line, r) => (line, r)
      | none => (headerSection, [])
    let statusLine := trimSpace sl.1
    let code : Int :=
      match secondTok statusLine with
      | some t =>
        match atoiL t with
        | some v => v
        | none => 0
      | none => 0
    let hdrs := parseHdrCore (sl.2.length + 1) sl.2 []
    let body1 :=
      if bodyOffset > 0 then
        if bodyOffset ≥ (bodyBytes.length : Int) then [] else bodyBytes.drop bodyOffset.toNat
      else bodyBytes
    let bl :=
      if bodyLimit > 0 ∧ (body1.length : Int) > bodyLimit then
        (body1.take bodyLimit.toNat, true)
      else (body1, false)
    some {
      StatusCode := code
      StatusLine := statusLine
      Headers := hdrs
      Body := if bodyBytes.length > 0 then bl.1 else []
      BodySize := bodyBytes.length
      Truncated := if bodyBytes.length > 0 then bl.2 else false }

/-! ### Race executor (`executeRace`) and the handler's count bounds -/

structure RaceResponseEntry where
  Index : Nat
  StatusCode : Int
  Body : List Char
deriving DecidableEq

/-- The network fate of one connection slot, the per-slot nondeterminism that
the concurrent phases of `executeRace` resolve.  `dialFail`: the dial errored
(slot never connected).  `sendFail`: the dial succeeded but the phase-2 write
or flush of the request bytes before the final byte failed (the slot is closed
and carries the wrapped error message).  `responds`: the slot survived all
write phases and its socket yields exactly this byte stream. -/
inductive SlotNet where
  | dialFail (msg : List Char)
  | sendFail (msg : List Char)
  | responds (stream : List Char)
deriving DecidableEq

def SlotNet.isDialFail : SlotNet → Bool
  | .dialFail _ => true
  | _ => false

/-- The error text recorded in `connErrors` for a failed slot
(for `responds` slots no error is recorded). -/
def SlotNet.errText : SlotNet → List Char
  | .dialFail m => m
  | .sendFail m => m
  | .responds _ => []

/-- Slots that never reached the read phase (`conns[i] == nil` in phase 4). -/
def SlotNet.failedConn : SlotNet → Bool
  | .responds _ => false
  | _ => true

/-- A `responds` slot whose reader would not panic (always true of the other
slot kinds). -/
def SlotNet.noPanic : SlotNet → Bool
  | .responds stream => (readHTTPResponse stream).isSome
  | _ => true

def connFailedMsg (m : List Char) : List Char := "connection failed: ".data ++ m

/-- The record phase 4 of `executeRace` produces for slot `i`.  Results are
written into pre-allocated index `i` of the result slice by exactly one task,
so the outcome is a function of the slot's own fate alone — independent of
the completion order of the other slots.  `none` models a panic inside the
reader. -/
def slotResult (bodyLimit : Int) (i : Nat) : SlotNet → Option RaceResponseEntry
  | .dialFail m => some ⟨i, 0, connFailedMsg m⟩
  | .sendFail m => some ⟨i, 0, connFailedMsg m⟩
  | .responds stream =>
    match readHTTPResponse stream with
    | none => none
    | some (.error e) => some ⟨i, 0, "read error: ".data ++ rdErrText e⟩
    | some (.ok resp) =>
      match ParseHTTPResponse resp 0 bodyLimit with
      | none => some ⟨i, 0, []⟩
      | some parsed => some ⟨i, parsed.StatusCode, parsed.Body⟩

/-- Sequence a list of per-slot results; `none` as soon as one is `none`
(a panic in any goroutine crashes the whole program). -/
def mapMOpt {α β : Type} (f : α → Option β) : List α → Option (List β)
  | [] => some []
  | a :: as =>
    match f a, mapMOpt f as with
    | some b, some bs => some (b :: bs)
    | _, _ => none

/-- `fmt.Errorf("all %d connections failed: %v", count, connErrors[0])`. -/
def aggMsg (count : Nat) (first : List Char) : List Char :=
  "all ".data ++ natToDec count ++ " connections failed: ".data ++ first

/-- Model of `executeRace`: the dial phase fills each slot independently;
if no slot connected, the single aggregate error is returned (the only error
exit of the function); otherwise the prepared request is split into its
all-but-last-byte part and final byte, the two write phases run, and phase 4
assembles one record per requested slot.  `none` models the runtime panics
(`connErrors[0]` on an empty slice, the slice expression on an empty request,
or a panic inside a reader goroutine). -/
def executeRace (rawRequest : List Char) (slots : List SlotNet) (bodyLimit : Int) :
    Option (Except (List Char) (List RaceResponseEntry)) :=
  if slots.all SlotNet.isDialFail then
    match slots with
    | [] => none
    | s0 :: _ => some (.error (aggMsg slots.length s0.errText))
  else if rawRequest.isEmpty then none
  else
    (mapMOpt (fun p => slotResult bodyLimit p.1 p.2) slots.enum).map .ok

/-- Count defaulting and bounding of `raceRequestHandler`
(lines 98–105 of `race_request.go`). -/
def effectiveCount (c : Int) : Int :=
  let c1 := if c ≤ 0 then 10 else c
  if c1 > 50 then 50 else c1

/-! ### Spec-side definitions -/

/-- Modelled from the spec (C3): the well-formed chunked encoding of a chunk
partition — for each chunk a hexadecimal size line, the chunk bytes and a
trailing CRLF, terminated by a zero-size chunk with its trailer. -/
def chunkEncode (chunks : List (List Char)) : List Char :=
  (chunks.map (fun c => natToHex c.length ++ crlf ++ c ++ crlf)).foldr (· ++ ·) []
    ++ '0' :: crlf ++ crlf

example : normalizeRawRequest "GET / HTTP/1.1\nHost: example.com\n".data =
    "GET / HTTP/1.1\r\nHost: example.com\r\n\r\n".data := by decide
example : normalizeRawRequest "GET / HTTP/1.1\r\nHost: example.com\r\n\r\n".data =
    "GET / HTTP/1.1\r\nHost: example.com\r\n\r\n".data := by decide
example : normalizeRawRequest "GET / HTTP/1.1\r\nHost: example.com".data =
    "GET / HTTP/1.1\r\nHost: example.com\r\n\r\n".data := by decide
example : normalizeRawRequest "POST / HTTP/1.1\nHost: example.com\n\nkey=value".data =
    "POST / HTTP/1.1\r\nHost: example.com\r\n\r\nkey=value\r\n\r\n".data := by decide
example : fixContentLength "POST / HTTP/1.1\r\nHost: x\r\nContent-Length: 5\r\n\r\nabc".data =
    "POST / HTTP/1.1\r\nHost: x\r\nContent-Length: 3\r\n\r\nabc".data := by decide
example : prepareRequest "POST / HTTP/1.1\r\nHost: x\r\nContent-Length: 5\r\n\r\nabc".data =
    "POST / HTTP/1.1\r\nHost: x\r\nContent-Length: 7\r\n\r\nabc\r\n\r\n".data := by decide

example : readChunkedBody "3\r\nabc\r\n2\r\nde\r\n0\r\n\r\n".data =
    some ("abcde".data, false) := by decide
example : readChunkedBody "3\r\nab".data = some ("ab".data, true) := by decide
example : readHTTPResponse "HTTP/1.1 200 OK\r\nContent-Length: 5\r\n\r\nhello".data =
    some (.ok "HTTP/1.1 200 OK\r\nContent-Length: 5\r\n\r\nhello".data) := by decide
example : readHTTPResponse "HTTP/1.1 200 OK\r\nContent-Length: 5\r\n\r\nhe".data =
    some (.ok "HTTP/1.1 200 OK\r\nContent-Length: 5\r\n\r\nhe".data) := by decide
example : readHTTPResponse "HTTP/1.1 200 OK\r\nTransfer-Encoding: chunked\r\n\r\n3\r\nab".data =
    some (.ok "HTTP/1.1 200 OK\r\nTransfer-Encoding: chunked\r\n\r\n".data) := by decide
example : readHTTPResponse "HTTP/1.1 200\r\nServer: x".data = some (.error .headersErr) := by
  decide
example : readHTTPResponse "HTTP".data = some (.error .statusLineErr) := by decide

example : (ParseHTTPResponse "HTTP/1.1 200 OK\r\nContent-Type: text/html\r\n\r\n<html>hello</html>".data
    0 2000).map (fun p => (p.StatusCode, p.Body, p.Truncated)) =
    some (200, "<html>hello</html>".data, false) := by decide
example : (ParseHTTPResponse "HTTP/2 403\r\nServer: nginx\r\n\r\nForbidden".data 0 2000).map
    (fun p => p.StatusCode) = some 403 := by decide
example : (ParseHTTPResponse ("HTTP/1.1 200 OK\r\n\r\n".data ++ List.replicate 100 'A') 0 10).map
    (fun p => (p.Body.length, p.Truncated, p.BodySize)) = some (10, true, 100) := by decide
example : (ParseHTTPResponse "HTTP/1.1 200 OK\r\n\r\n0123456789".data 5 2000).map
    (fun p => p.Body) = some "56789".data := by decide
example : ParseHTTPResponse [] 0 2000 = none := by decide
example : (ParseHTTPResponse "HTTP/1.1 301 Moved\nLocation: /new\n\nredirect".data 0 2000).map
    (fun p => (p.StatusCode, p.Headers)) =
    some (301, [("Location".data, "/new".data)]) := by decide

example : executeRace "x".data [.dialFail "boom".data, .dialFail "pow".data] 500 =
    some (.error "all 2 connections failed: boom".data) := by decide
example : executeRace "x".data
    [.dialFail "boom".data,
     .responds "HTTP/1.1 200 OK\r\nContent-Length: 2\r\n\r\nhi".data,
     .sendFail "prefix write: broken pipe".data] 500 =
    some (.ok [⟨0, 0, "connection failed: boom".data⟩,
               ⟨1, 200, "hi".data⟩,
               ⟨2, 0, "connection failed: prefix write: broken pipe".data⟩]) := by decide

/-! ### C8: connection-count bounds -/

/-- C8: the effective connection count is bounded to [1, 50] with default 10:
an omitted (zero) or non-positive count yields 10, a count above 50 yields 50,
and any count in [1, 50] is used unchanged. -/
theorem effectiveCount_bounds (c : Int) :
    (c ≤ 0 → effectiveCount c = 10) ∧
    (50 < c → effectiveCount c = 50) ∧
    (1 ≤ c → c ≤ 50 → effectiveCount c = c) := by
  unfold effectiveCount
  refine ⟨fun h => ?_, fun h => ?_, fun h1 h2 => ?_⟩ <;> simp only <;> split_ifs <;> omega

theorem effectiveCount_bounds_witness :
    ((-3 : Int) ≤ 0 ∧ effectiveCount (-3) = 10) ∧
    (50 < (60 : Int) ∧ effectiveCount 60 = 50) ∧
    (1 ≤ (7 : Int) ∧ (7 : Int) ≤ 50 ∧ effectiveCount 7 = 7) :=
  ⟨⟨by decide, (effectiveCount_bounds (-3)).1 (by decide)⟩,
   ⟨by decide, (effectiveCount_bounds 60).2.1 (by decide)⟩,
   ⟨by decide, by decide, (effectiveCount_bounds 7).2.2 (by decide) (by decide)⟩⟩

/-! ### C7: body truncation in the emitted record -/

/-- The body section `ParseHTTPResponse` isolates from a raw response
(split at the first `"\r\n\r\n"`, else the first `"\n\n"`, else no body). -/
def bodySectionOf (raw : List Char) : List Char :=
  match splitFirstSep raw with
  | some (_, b) => b
  | none =>
    match splitFirstLF2 raw with
    | some (_, b) => b
    | none => []

/-- C7: a response body longer than the configured positive limit is truncated
to exactly the limit length in the emitted record (`Truncated` set), the kept
bytes being precisely the leading `limit` bytes of the body actually read;
the bytes read from the connection are not altered — the full body length is
still reported in `BodySize`, and `readHTTPResponse` takes no limit at all. -/
theorem parseHTTPResponse_truncates (raw : List Char) (limit : Int)
    (hl : 0 < limit) (hlong : limit < ((bodySectionOf raw).length : Int)) :
    (ParseHTTPResponse raw 0 limit).map (fun p => (p.Body, p.Body.length, p.Truncated, p.BodySize))
      = some ((bodySectionOf raw).take limit.toNat, limit.toNat, true,
              (bodySectionOf raw).length) := by
  have hraw : raw ≠ [] := by
    intro h
    subst h
    simp [bodySectionOf, splitFirstSep, splitFirstLF2] at hlong
    omega
  have hlen : 0 < (bodySectionOf raw).length := by
    by_contra h
    push_neg at h
    omega
  have hbody : (match splitFirstSep raw with
      | some (h, b) => (h, b)
      | none =>
        match splitFirstLF2 raw with
        | some (h, b) => (h, b)
        | none => (raw, [])).2 = bodySectionOf raw := by
    unfold bodySectionOf
    cases splitFirstSep raw with
    | some p => rfl
    | none =>
      cases splitFirstLF2 raw with
      | some p => rfl
      | none => rfl
  unfold ParseHTTPResponse
  rw [if_neg hraw]
  simp only [hbody, Option.map_some', gt_iff_lt]
  rw [if_neg (by omega : ¬ ((0 : Int) < 0))]
  rw [if_pos (⟨hl, hlong⟩ : 0 < limit ∧ limit < ((bodySectionOf raw).length : Int))]
  rw [if_pos hlen, if_pos hlen]
  have htn : limit.toNat ≤ (bodySectionOf raw).length := by omega
  simp [List.length_take, Nat.min_eq_left htn]

theorem parseHTTPResponse_truncates_witness :
    0 < (3 : Int) ∧
    (3 : Int) < ((bodySectionOf "HTTP/1.1 200 OK\r\n\r\nabcdef".data).length : Int) ∧
    (ParseHTTPResponse "HTTP/1.1 200 OK\r\n\r\nabcdef".data 0 3).map
        (fun p => (p.Body, p.Body.length, p.Truncated, p.BodySize))
      = some ((bodySectionOf "HTTP/1.1 200 OK\r\n\r\nabcdef".data).take (3 : Int).toNat,
              (3 : Int).toNat, true,
              (bodySectionOf "HTTP/1.1 200 OK\r\n\r\nabcdef".data).length) :=
  ⟨by decide, by decide,
   parseHTTPResponse_truncates "HTTP/1.1 200 OK\r\n\r\nabcdef".data 3 (by decide) (by decide)⟩

/-! ### C1 and C5: result-list shape and the aggregate-error exit -/

theorem mapMOpt_some {α β : Type} (f : α → Option β) (l : List α)
    (h : ∀ x ∈ l, (f x).isSome) :
    ∃ rs, mapMOpt f l = some rs ∧ rs.length = l.length ∧
      ∀ i (hi : i < rs.length) (hi' : i < l.length),
        f (l.get ⟨i, hi'⟩) = some (rs.get ⟨i, hi⟩) := by
  induction l with
  | nil => exact ⟨[], rfl, rfl, fun i hi _ => absurd hi (by simp at hi)⟩
  | cons a as ih =>
    obtain ⟨b, hb⟩ := Option.isSome_iff_exists.mp (h a (List.mem_cons_self a as))
    obtain ⟨rs, hrs, hlen, hpt⟩ := ih (fun x hx => h x (List.mem_cons_of_mem a hx))
    refine ⟨b :: rs, ?_, by simp [hlen], ?_⟩
    · simp [mapMOpt, hb, hrs]
    · intro i hi hi'
      cases i with
      | zero => simpa using hb
      | succ j =>
        simpa using hpt j (by simpa using hi) (by simpa using hi')

theorem slotResult_isSome (bl : Int) (i : Nat) (s : SlotNet) (h : s.noPanic = true) :
    (slotResult bl i s).isSome := by
  cases s with
  | dialFail m => simp [slotResult]
  | sendFail m => simp [slotResult]
  | responds stream =>
    simp only [SlotNet.noPanic] at h
    obtain ⟨r, hr⟩ := Option.isSome_iff_exists.mp h
    cases r with
    | error e => simp [slotResult, hr]
    | ok resp =>
      cases hp : ParseHTTPResponse resp 0 bl with
      | none => simp [slotResult, hr, hp]
      | some parsed => simp [slotResult, hr, hp]

theorem slotResult_index (bl : Int) (i : Nat) (s : SlotNet) (r : RaceResponseEntry)
    (h : slotResult bl i s = some r) : r.Index = i := by
  cases s with
  | dialFail m => simp [slotResult] at h; simp [← h]
  | sendFail m => simp [slotResult] at h; simp [← h]
  | responds stream =>
    simp only [slotResult] at h
    cases hr : readHTTPResponse stream with
    | none => rw [hr] at h; simp at h
    | some x =>
      rw [hr] at h
      cases x with
      | error e => simp at h; simp [← h]
      | ok resp =>
        simp only at h
        cases hp : ParseHTTPResponse resp 0 bl with
        | none => rw [hp] at h; simp at h; simp [← h]
        | some parsed => rw [hp] at h; simp at h; simp [← h]

theorem slotResult_of_failedConn (bl : Int) (i : Nat) (s : SlotNet)
    (h : s.failedConn = true) :
    slotResult bl i s = some ⟨i, 0, connFailedMsg s.errText⟩ := by
  cases s with
  | dialFail m => rfl
  | sendFail m => rfl
  | responds stream => simp [SlotNet.failedConn] at h

/-- C1: whenever at least one of the N dials succeeds (and no reader panics),
`executeRace` returns a result list of exactly N entries; the entry at
position i always has `Index = i` and is exactly the record slot i's own fate
determines (the parsed response of a surviving slot, or the status-0
`connection failed` placeholder of a slot that never connected) — the model
is a pure function of the per-slot fates, so this holds regardless of the
order in which the concurrent per-slot tasks complete. -/
theorem executeRace_index_stable (raw : List Char) (slots : List SlotNet) (bodyLimit : Int)
    (hconn : ¬ slots.all SlotNet.isDialFail = true)
    (hraw : raw ≠ [])
    (hnp : ∀ s ∈ slots, s.noPanic = true) :
    ∃ rs, executeRace raw slots bodyLimit = some (.ok rs) ∧
      rs.length = slots.length ∧
      ∀ i (hi : i < rs.length) (hi' : i < slots.length),
        (rs.get ⟨i, hi⟩).Index = i ∧
        slotResult bodyLimit i (slots.get ⟨i, hi'⟩) = some (rs.get ⟨i, hi⟩) ∧
        ((slots.get ⟨i, hi'⟩).failedConn = true →
          rs.get ⟨i, hi⟩ = ⟨i, 0, connFailedMsg (slots.get ⟨i, hi'⟩).errText⟩) := by
  have hall : ∀ p ∈ slots.enum, (slotResult bodyLimit p.1 p.2).isSome := by
    intro p hp
    exact slotResult_isSome _ _ _ (hnp p.2 (List.snd_mem_of_mem_enum hp))
  obtain ⟨rs, hrs, hlen, hpt⟩ := mapMOpt_some _ _ hall
  have hlen2 : rs.length = slots.length := by simpa using hlen
  refine ⟨rs, ?_, hlen2, ?_⟩
  · unfold executeRace
    rw [if_neg hconn, if_neg (by simpa using hraw)]
    simp [hrs]
  · intro i hi hi'
    have hie : i < slots.enum.length := by simpa using hi'
    have hslot := hpt i hi hie
    have henum : slots.enum.get ⟨i, hie⟩ = (i, slots.get ⟨i, hi'⟩) := by
      simp [List.getElem_enum]
    rw [henum] at hslot
    refine ⟨slotResult_index _ _ _ _ hslot, hslot, fun hfc => ?_⟩
    have := slotResult_of_failedConn bodyLimit i (slots.get ⟨i, hi'⟩) hfc
    rw [this] at hslot
    exact (Option.some.injEq _ _).mp hslot.symm ▸ rfl

theorem executeRace_index_stable_witness :
    (¬ ([SlotNet.dialFail "boom".data,
         SlotNet.responds "HTTP/1.1 200 OK\r\nContent-Length: 2\r\n\r\nhi".data].all
          SlotNet.isDialFail = true)) ∧
    ∃ rs, executeRace "x".data
        [SlotNet.dialFail "boom".data,
         SlotNet.responds "HTTP/1.1 200 OK\r\nContent-Length: 2\r\n\r\nhi".data] 500 =
        some (.ok rs) ∧
      rs.length = 2 ∧
      ∀ i (hi : i < rs.length) (hi' : i < 2),
        (rs.get ⟨i, hi⟩).Index = i ∧
        slotResult 500 i ([SlotNet.dialFail "boom".data,
          SlotNet.responds "HTTP/1.1 200 OK\r\nContent-Length: 2\r\n\r\nhi".data].get ⟨i, hi'⟩) =
          some (rs.get ⟨i, hi⟩) ∧
        (([SlotNet.dialFail "boom".data,
           SlotNet.responds "HTTP/1.1 200 OK\r\nContent-Length: 2\r\n\r\nhi".data].get
            ⟨i, hi'⟩).failedConn = true →
          rs.get ⟨i, hi⟩ = ⟨i, 0, connFailedMsg ([SlotNet.dialFail "boom".data,
            SlotNet.responds "HTTP/1.1 200 OK\r\nContent-Length: 2\r\n\r\nhi".data].get
              ⟨i, hi'⟩).errText⟩) :=
  ⟨by decide,
   executeRace_index_stable "x".data
     [SlotNet.dialFail "boom".data,
      SlotNet.responds "HTTP/1.1 200 OK\r\nContent-Length: 2\r\n\r\nhi".data] 500
     (by decide) (by decide) (by decide)⟩

/-- C5: if every one of the N dial attempts fails, `executeRace` returns the
single aggregate top-level error naming the first slot's underlying dial
failure (and no per-slot result list); conversely, a top-level error is
surfaced only in that all-dials-failed situation, and it is always that
aggregate error. -/
theorem executeRace_aggregate_error (raw : List Char) (s0 : SlotNet) (rest : List SlotNet)
    (bodyLimit : Int) :
    ((s0 :: rest).all SlotNet.isDialFail = true →
      executeRace raw (s0 :: rest) bodyLimit =
        some (.error (aggMsg (s0 :: rest).length s0.errText))) ∧
    (∀ e, executeRace raw (s0 :: rest) bodyLimit = some (.error e) →
      (s0 :: rest).all SlotNet.isDialFail = true ∧
      e = aggMsg (s0 :: rest).length s0.errText) := by
  constructor
  · intro hall
    unfold executeRace
    rw [if_pos hall]
  · intro e he
    unfold executeRace at he
    by_cases hall : (s0 :: rest).all SlotNet.isDialFail = true
    · rw [if_pos hall] at he
      simp at he
      exact ⟨hall, he.symm⟩
    · rw [if_neg hall] at he
      by_cases hraw : raw.isEmpty
      · rw [if_pos hraw] at he
        simp at he
      · rw [if_neg hraw] at he
        cases hm : mapMOpt (fun p => slotResult bodyLimit p.1 p.2) (s0 :: rest).enum with
        | none => rw [hm] at he; simp at he
        | some rs => rw [hm] at he; simp at he

theorem executeRace_aggregate_error_witness :
    ([SlotNet.dialFail "boom".data, SlotNet.dialFail "pow".data].all SlotNet.isDialFail = true) ∧
    executeRace "x".data [SlotNet.dialFail "boom".data, SlotNet.dialFail "pow".data] 500 =
      some (.error (aggMsg 2 "boom".data)) :=
  ⟨by decide,
   (executeRace_aggregate_error "x".data (SlotNet.dialFail "boom".data)
     [SlotNet.dialFail "pow".data] 500).1 (by decide)⟩

/-! ### C3: chunked encoding round-trip -/

theorem hexDigVal_digitChar (d : Nat) (hd : d < 16) :
    hexDigVal (Nat.digitChar d) = some d := by
  interval_cases d <;> decide

/-- A fueled digit counter matching the recursion of `natToBaseCore`. -/
def baseDigitsCore (b : Nat) : Nat → Nat → Nat
  | 0, _ => 0
  | fuel + 1, n => if n = 0 then 0 else baseDigitsCore b fuel (n / b) + 1

theorem natToBaseCore_zero (b fuel : Nat) (acc : List Char) :
    natToBaseCore b fuel 0 acc = acc := by
  cases fuel <;> simp [natToBaseCore]

theorem digitsValAux_natToBaseCore (b : Nat) (dv : Char → Option Nat)
    (hb : 2 ≤ b) (hdv : ∀ d, d < b → dv (Nat.digitChar d) = some d) :
    ∀ n fuel acc a, n ≤ fuel →
      digitsValAux dv b (natToBaseCore b fuel n acc) a =
        digitsValAux dv b acc (a * b ^ baseDigitsCore b fuel n + n) := by
  intro n
  induction n using Nat.strong_induction_on with
  | _ n ih =>
    intro fuel acc a hfuel
    cases hn : n with
    | zero =>
      rw [natToBaseCore_zero]
      cases fuel <;> simp [baseDigitsCore]
    | succ m =>
      subst hn
      obtain ⟨f, rfl⟩ : ∃ f, fuel = f + 1 := ⟨fuel - 1, by omega⟩
      have hdivlt : (m + 1) / b < m + 1 := Nat.div_lt_self (Nat.succ_pos m) (by omega)
      have hstep :
          natToBaseCore b (f + 1) (m + 1) acc =
            natToBaseCore b f ((m + 1) / b) (Nat.digitChar ((m + 1) % b) :: acc) := by
        simp [natToBaseCore]
      rw [hstep, ih ((m + 1) / b) hdivlt f _ a (by omega)]
      have hmod : (m + 1) % b < b := Nat.mod_lt _ (by omega)
      have hcons : ∀ v, digitsValAux dv b (Nat.digitChar ((m + 1) % b) :: acc) v =
          digitsValAux dv b acc (v * b + (m + 1) % b) := by
        intro v
        simp [digitsValAux, hdv _ hmod]
      rw [hcons]
      have hdig : baseDigitsCore b (f + 1) (m + 1) = baseDigitsCore b f ((m + 1) / b) + 1 := by
        simp [baseDigitsCore]
      rw [hdig]
      congr 1
      rw [pow_succ]
      nlinarith [Nat.div_add_mod (m + 1) b]

theorem natToBaseCore_ne_nil_of_acc (b fuel n : Nat) (acc : List Char) (ha : acc ≠ []) :
    natToBaseCore b fuel n acc ≠ [] := by
  induction fuel generalizing n acc with
  | zero => simpa [natToBaseCore]
  | succ f ih =>
    simp only [natToBaseCore]
    split
    · exact ha
    · exact ih _ _ (by simp)

theorem natToBaseCore_ne_nil (b fuel n : Nat) (acc : List Char)
    (hn : 0 < n) (hf : 0 < fuel) : natToBaseCore b fuel n acc ≠ [] := by
  obtain ⟨f, rfl⟩ : ∃ f, fuel = f + 1 := ⟨fuel - 1, by omega⟩
  simp only [natToBaseCore, Nat.pos_iff_ne_zero.mp hn, if_neg (by omega : ¬ n = 0)]
  exact natToBaseCore_ne_nil_of_acc _ _ _ _ (by simp)

theorem natToBaseCore_mem (b : Nat) (P : Char → Prop) (hb : 0 < b)
    (hP : ∀ d, d < b → P (Nat.digitChar d)) :
    ∀ fuel n acc, (∀ c ∈ acc, P c) → ∀ c ∈ natToBaseCore b fuel n acc, P c := by
  intro fuel
  induction fuel with
  | zero => intro n acc hacc c hc; exact hacc c hc
  | succ f ih =>
    intro n acc hacc c hc
    simp only [natToBaseCore] at hc
    split at hc
    · exact hacc c hc
    · refine ih _ _ ?_ c hc
      intro x hx
      rcases List.mem_cons.mp hx with h | h
      · exact h ▸ hP _ (Nat.mod_lt _ hb)
      · exact hacc x h

theorem hexDigVal_isSome_facts (c : Char) (h : (hexDigVal c).isSome) :
    isSpaceB c = false ∧ c ≠ '+' ∧ c ≠ '-' ∧ c ≠ '\n' := by
  have hr : ('0' ≤ c ∧ c ≤ '9') ∨ ('a' ≤ c ∧ c ≤ 'f') ∨ ('A' ≤ c ∧ c ≤ 'F') := by
    by_contra hcon
    simp only [hexDigVal] at h
    rw [if_neg (fun hx => hcon (Or.inl hx)),
        if_neg (fun hx => hcon (Or.inr (Or.inl hx))),
        if_neg (fun hx => hcon (Or.inr (Or.inr hx)))] at h
    simp at h
  refine ⟨?_, ?_, ?_, ?_⟩
  · simp only [isSpaceB, Bool.or_eq_false_iff, decide_eq_false_iff_not]
    and_intros <;> (intro hc; rw [hc] at hr; revert hr; decide)
  all_goals intro hc; rw [hc] at hr; revert hr; decide

theorem digitsVal_natToBase (b : Nat) (dv : Char → Option Nat) (n fuel : Nat)
    (hb : 2 ≤ b) (hdv : ∀ d, d < b → dv (Nat.digitChar d) = some d)
    (hn : 0 < n) (hf : n ≤ fuel) :
    digitsVal dv b (natToBaseCore b fuel n []) = some n := by
  have hne := natToBaseCore_ne_nil b fuel n [] hn (by omega)
  have hval := digitsValAux_natToBaseCore b dv hb hdv n fuel [] 0 hf
  cases hl : natToBaseCore b fuel n [] with
  | nil => exact absurd hl hne
  | cons c cs =>
    rw [hl] at hval
    simpa [digitsVal, digitsValAux] using hval

theorem parseHex64_natToHex (n : Nat) (h : n ≤ maxInt64) :
    parseHex64 (natToHex n) = some (Int.ofNat n) := by
  by_cases hn : n = 0
  · subst hn; decide
  · have hpos : 0 < n := Nat.pos_of_ne_zero hn
    have hval := digitsVal_natToBase 16 hexDigVal n n (by omega) hexDigVal_digitChar hpos le_rfl
    have hmem : ∀ c ∈ natToBaseCore 16 n n [], (hexDigVal c).isSome := by
      refine natToBaseCore_mem 16 _ (by omega) ?_ n n [] (by simp)
      intro d hd
      simp [hexDigVal_digitChar d hd]
    have hne := natToBaseCore_ne_nil 16 n n [] hpos (by omega)
    unfold natToHex
    rw [if_neg hn]
    cases hl : natToBaseCore 16 n n [] with
    | nil => exact absurd hl hne
    | cons c cs =>
      have hc := hexDigVal_isSome_facts c (hmem c (by rw [hl]; exact List.mem_cons_self _ _))
      rw [hl] at hval
      simp only [parseHex64, parseIntBase]
      rw [if_neg hc.2.1, if_neg hc.2.2.1, hval]
      simp [h]

theorem natToHex_no_lf (n : Nat) : '\n' ∉ natToHex n := by
  unfold natToHex
  split
  · decide
  · intro hmem
    have hmemP : ∀ c ∈ natToBaseCore 16 n n [], (hexDigVal c).isSome := by
      refine natToBaseCore_mem 16 _ (by omega) ?_ n n [] (by simp)
      intro d hd
      simp [hexDigVal_digitChar d hd]
    exact (hexDigVal_isSome_facts '\n' (hmemP _ hmem)).2.2.2 rfl

theorem natToHex_no_space (n : Nat) : ∀ c ∈ natToHex n, isSpaceB c = false := by
  unfold natToHex
  split
  · decide
  · intro c hmem
    have hmemP : ∀ c ∈ natToBaseCore 16 n n [], (hexDigVal c).isSome := by
      refine natToBaseCore_mem 16 _ (by omega) ?_ n n [] (by simp)
      intro d hd
      simp [hexDigVal_digitChar d hd]
    exact (hexDigVal_isSome_facts c (hmemP _ hmem)).1

theorem natToHex_ne_nil (n : Nat) : natToHex n ≠ [] := by
  unfold natToHex
  split
  · decide
  · exact natToBaseCore_ne_nil 16 n n [] (by omega) (by omega)

/-- Trimming a nonempty all-nonspace token followed by CRLF recovers the token. -/
theorem trimSpace_token_crlf (l : List Char) (hne : l ≠ [])
    (hns : ∀ c ∈ l, isSpaceB c = false) :
    trimSpace (l ++ ['\r', '\n']) = l := by
  obtain ⟨c, cs, rfl⟩ := List.exists_cons_of_ne_nil hne
  unfold trimSpace trimRight
  rw [List.cons_append, List.dropWhile_cons,
    if_neg (by simp [hns c (List.mem_cons_self _ _)])]
  have hrev : (c :: (cs ++ ['\r', '\n'])).reverse = '\n' :: '\r' :: (c :: cs).reverse := by
    simp
  rw [hrev]
  rw [List.dropWhile_cons, if_pos (by decide), List.dropWhile_cons, if_pos (by decide)]
  cases hcr : (c :: cs).reverse with
  | nil => simp at hcr
  | cons d ds =>
    have hd : d ∈ (c :: cs) := by
      rw [← List.mem_reverse, hcr]
      exact List.mem_cons_self _ _
    rw [List.dropWhile_cons, if_neg (by simp [hns d hd]), ← hcr, List.reverse_reverse]


/-- Decoding one well-formed chunk: a nonempty chunk's size line, data and
trailer are consumed and the loop continues on the remaining stream. -/
theorem readChunkedBodyCore_step (f : Nat) (c rest : List Char) (hc : c ≠ [])
    (hlen : c.length ≤ maxInt64) :
    readChunkedBodyCore (f + 1) (natToHex c.length ++ crlf ++ c ++ crlf ++ rest) =
      match readChunkedBodyCore f rest with
      | none => none
      | some (b, e) => some (c ++ b, e) := by
  have hhex := natToHex_ne_nil c.length
  have hs : natToHex c.length ++ crlf ++ c ++ crlf ++ rest =
      (natToHex c.length ++ ['\r']) ++ '\n' :: (c ++ '\r' :: '\n' :: rest) := by
    simp [crlf]
  have hnl : '\n' ∉ natToHex c.length ++ ['\r'] := by
    intro hmem
    rcases List.mem_append.mp hmem with h | h
    · exact natToHex_no_lf _ h
    · simp at h
  have hsplit : splitAtNewline (natToHex c.length ++ crlf ++ c ++ crlf ++ rest) =
      some ((natToHex c.length ++ ['\r']) ++ ['\n'], c ++ '\r' :: '\n' :: rest) := by
    rw [hs]
    exact splitAtNewline_append _ _ hnl
  have htrim : trimSpace ((natToHex c.length ++ ['\r']) ++ ['\n']) = natToHex c.length := by
    have : (natToHex c.length ++ ['\r']) ++ ['\n'] = natToHex c.length ++ ['\r', '\n'] := by
      simp
    rw [this]
    exact trimSpace_token_crlf _ hhex (natToHex_no_space _)
  have hparse : parseHex64 (natToHex c.length) = some (Int.ofNat c.length) :=
    parseHex64_natToHex _ hlen
  have hclen : 0 < c.length := List.length_pos.mpr hc
  simp only [readChunkedBodyCore, hsplit, htrim, hparse]
  rw [if_neg (by simpa using Nat.pos_iff_ne_zero.mp hclen),
    if_neg (by simp)]
  have htoNat : (Int.ofNat c.length).toNat = c.length := rfl
  have htake : (c ++ '\r' :: '\n' :: rest).take c.length = c := by
    simp [List.take_left c ('\r' :: '\n' :: rest)]
  have hdrop : (c ++ '\r' :: '\n' :: rest).drop c.length = '\r' :: '\n' :: rest := by
    simp [List.drop_left c ('\r' :: '\n' :: rest)]
  have hnolen : ¬ ((c ++ '\r' :: '\n' :: rest).length < c.length) := by
    simp only [List.length_append, List.length_cons]
    omega
  simp only [readFull, htoNat, htake, hdrop, hnolen, decide_eq_true_eq, decide_False]
  have hsp2 : splitAtNewline ('\r' :: '\n' :: rest) = some (['\r', '\n'], rest) := by
    simp [splitAtNewline]
  simp only [hsp2, if_neg (by simp : ¬ (false = true))]

/-- C3: decoding the well-formed chunked encoding of any partition of a body
into nonempty chunks (each of a size representable in `int64`, as the decoder
parses sizes with a 64-bit bound) reproduces exactly the original body bytes,
with no error. -/
theorem readChunkedBody_roundtrip (chunks : List (List Char))
    (hwf : ∀ c ∈ chunks, c ≠ [] ∧ c.length ≤ maxInt64) :
    readChunkedBody (chunkEncode chunks) = some (chunks.flatten, false) := by
  suffices h : ∀ fuel, (chunkEncode chunks).length < fuel →
      readChunkedBodyCore fuel (chunkEncode chunks) = some (chunks.flatten, false) by
    exact h _ (Nat.lt_succ_self _)
  induction chunks with
  | nil =>
    intro fuel hf
    obtain ⟨f, rfl⟩ : ∃ f, fuel = f + 1 := ⟨fuel - 1, by omega⟩
    rfl
  | cons c cs ih =>
    intro fuel hf
    have hc := hwf c (List.mem_cons_self _ _)
    have hcs : ∀ x ∈ cs, x ≠ [] ∧ x.length ≤ maxInt64 :=
      fun x hx => hwf x (List.mem_cons_of_mem _ hx)
    have hform : chunkEncode (c :: cs) =
        natToHex c.length ++ crlf ++ c ++ crlf ++ chunkEncode cs := by
      simp [chunkEncode]
    obtain ⟨f, rfl⟩ : ∃ f, fuel = f + 1 := ⟨fuel - 1, by omega⟩
    have hlt : (chunkEncode cs).length < f := by
      rw [hform] at hf
      have hhexlen : 0 < (natToHex c.length).length :=
        List.length_pos.mpr (natToHex_ne_nil _)
      simp only [List.length_append, crlf, List.length_cons, List.length_nil] at hf
      omega
    rw [hform, readChunkedBodyCore_step f c (chunkEncode cs) hc.1 hc.2, ih hcs f hlt]
    simp

theorem readChunkedBody_roundtrip_witness :
    (∀ c ∈ [['a', 'b'], ['c']], c ≠ [] ∧ c.length ≤ maxInt64) ∧
    readChunkedBody (chunkEncode [['a', 'b'], ['c']]) =
      some ([['a', 'b'], ['c']].flatten, false) :=
  ⟨by decide, readChunkedBody_roundtrip [['a', 'b'], ['c']] (by decide)⟩

/-! ### C9: shape of the prepared request -/

theorem startsWithL_iff (pat : List Char) : ∀ s, startsWithL s pat = true ↔ ∃ t, s = pat ++ t := by
  induction pat with
  | nil => intro s; simp [startsWithL]
  | cons p ps ih =>
    intro s
    cases s with
    | nil => simp [startsWithL]
    | cons c cs =>
      simp only [startsWithL, Bool.and_eq_true, decide_eq_true_eq, ih cs]
      constructor
      · rintro ⟨rfl, t, rfl⟩
        exact ⟨t, rfl⟩
      · rintro ⟨t, ht⟩
        simp only [List.cons_append, List.cons.injEq] at ht
        exact ⟨ht.1, t, ht.2⟩

theorem endsWithL_iff (s pat : List Char) : endsWithL s pat = true ↔ ∃ y, s = y ++ pat := by
  unfold endsWithL
  rw [startsWithL_iff]
  constructor
  · rintro ⟨t, ht⟩
    refine ⟨t.reverse, ?_⟩
    have := congrArg List.reverse ht
    simpa using this
  · rintro ⟨y, rfl⟩
    exact ⟨y.reverse, by simp⟩

theorem endsWithL_append (y pat : List Char) : endsWithL (y ++ pat) pat = true :=
  (endsWithL_iff _ _).mpr ⟨y, rfl⟩

theorem endsWithL_drop_left (x m pat : List Char) (h : endsWithL (x ++ m) pat = true)
    (hlen : pat.length ≤ m.length) : endsWithL m pat = true := by
  obtain ⟨y, hy⟩ := (endsWithL_iff _ _).mp h
  rw [endsWithL_iff]
  have hlm : (x ++ m).length = (y ++ pat).length := by rw [hy]
  simp only [List.length_append] at hlm
  have hdrop := congrArg (List.drop (x.length + (m.length - pat.length))) hy
  rw [List.drop_append_eq_append_drop, List.drop_append_eq_append_drop] at hdrop
  have hk1 : x.length ≤ x.length + (m.length - pat.length) := by omega
  have hk2 : y.length ≤ x.length + (m.length - pat.length) := by omega
  rw [List.drop_eq_nil_of_le hk1, List.drop_eq_nil_of_le hk2] at hdrop
  simp only [List.nil_append] at hdrop
  rw [show x.length + (m.length - pat.length) - x.length = m.length - pat.length from by omega,
    show x.length + (m.length - pat.length) - y.length = 0 from by omega, List.drop_zero] at hdrop
  have hsplit2 := List.take_append_drop (m.length - pat.length) m
  rw [hdrop] at hsplit2
  exact ⟨_, hsplit2.symm⟩

theorem endsWithL_append_left (x m pat : List Char) (h : endsWithL m pat = true) :
    endsWithL (x ++ m) pat = true := by
  obtain ⟨y, rfl⟩ := (endsWithL_iff _ _).mp h
  rw [← List.append_assoc]
  exact endsWithL_append _ _

theorem normalizeRawRequest_terminated (s : List Char) :
    endsWithL (normalizeRawRequest s) sepCRLF2 = true := by
  simp only [normalizeRawRequest]
  split_ifs with h1 h2
  · exact h1
  · obtain ⟨y, hy⟩ := (endsWithL_iff _ _).mp h2
    rw [hy, List.append_assoc]
    exact endsWithL_append y (crlf ++ crlf)
  · exact endsWithL_append _ _

theorem splitFirstSep_decomp {t h b : List Char} (hs : splitFirstSep t = some (h, b)) :
    t = h ++ sepCRLF2 ++ b := by
  induction t generalizing h b with
  | nil => simp [splitFirstSep] at hs
  | cons c cs ih =>
    simp only [splitFirstSep] at hs
    by_cases hsw : startsWithL (c :: cs) sepCRLF2 = true
    · rw [if_pos hsw] at hs
      obtain ⟨t', ht'⟩ := (startsWithL_iff _ _).mp hsw
      simp only [sepCRLF2, List.cons_append, List.cons.injEq] at ht'
      obtain ⟨hc, hcs⟩ := ht'
      simp only [Option.some.injEq, Prod.mk.injEq] at hs
      subst hc
      rw [← hs.1, ← hs.2]
      simp [hcs, sepCRLF2]
    · rw [if_neg hsw] at hs
      cases hrec : splitFirstSep cs with
      | none => rw [hrec] at hs; simp at hs
      | some p =>
        rw [hrec] at hs
        obtain ⟨h', b'⟩ := p
        simp only [Option.some.injEq, Prod.mk.injEq] at hs
        rw [← hs.1, ← hs.2]
        simp [ih hrec]

theorem splitFirstSep_isSome_of_suffix (y : List Char) :
    ∀ z, (splitFirstSep (y ++ sepCRLF2 ++ z)).isSome = true := by
  induction y with
  | nil =>
    intro z
    show (splitFirstSep (sepCRLF2 ++ z)).isSome = true
    simp [splitFirstSep, startsWithL, sepCRLF2]
  | cons c cs ih =>
    intro z
    show (splitFirstSep (c :: (cs ++ sepCRLF2 ++ z))).isSome = true
    simp only [splitFirstSep]
    split
    · simp
    · have := ih z
      cases hrec : splitFirstSep (cs ++ sepCRLF2 ++ z) with
      | none => rw [hrec] at this; simp at this
      | some p => simp [hrec]

theorem fixContentLength_keeps_terminator (t : List Char)
    (ht : endsWithL t sepCRLF2 = true) :
    endsWithL (fixContentLength t) sepCRLF2 = true := by
  obtain ⟨y, rfl⟩ := (endsWithL_iff _ _).mp ht
  have hsome := splitFirstSep_isSome_of_suffix y []
  rw [List.append_nil] at hsome
  obtain ⟨⟨h, b⟩, hsp⟩ := Option.isSome_iff_exists.mp hsome
  have hdec := splitFirstSep_decomp hsp
  unfold fixContentLength
  rw [hsp]
  simp only
  rcases Nat.eq_zero_or_pos b.length with hb | hb
  · have hbnil : b = [] := List.length_eq_zero.mp hb
    subst hbnil
    rw [List.append_nil]
    exact endsWithL_append _ _
  · have hend2 : endsWithL (sepCRLF2 ++ b) sepCRLF2 = true := by
      refine endsWithL_drop_left h _ _ ?_ (by simp [sepCRLF2])
      rw [← List.append_assoc, ← hdec]
      exact endsWithL_append _ _
    rw [List.append_assoc]
    exact endsWithL_append_left _ _ _ hend2

/-- C9: `normalizeRawRequest` always returns a byte sequence ending in the
double-CRLF terminator, and `fixContentLength` preserves that terminator, so
the prepared request `executeRace` receives is nonempty (length at least 4):
the `rawRequest[:len-1]` / `rawRequest[len-1:]` split is in bounds and the
synchronized final byte is always the newline byte 0x0A. -/
theorem prepareRequest_shape (s : List Char) :
    endsWithL (normalizeRawRequest s) sepCRLF2 = true ∧
    endsWithL (prepareRequest s) sepCRLF2 = true ∧
    prepareRequest s ≠ [] ∧
    4 ≤ (prepareRequest s).length ∧
    (prepareRequest s).getLast? = some '\n' ∧
    (prepareRequest s).dropLast ++ ['\n'] = prepareRequest s := by
  have h1 := normalizeRawRequest_terminated s
  have h2 : endsWithL (prepareRequest s) sepCRLF2 = true :=
    fixContentLength_keeps_terminator _ h1
  obtain ⟨y, hy⟩ := (endsWithL_iff _ _).mp h2
  have hform : prepareRequest s = (y ++ ['\r', '\n', '\r']) ++ ['\n'] := by
    rw [hy]; simp [sepCRLF2]
  refine ⟨h1, h2, ?_, ?_, ?_, ?_⟩
  · rw [hform]; simp
  · rw [hy]; simp [sepCRLF2]
  · rw [hform, List.getLast?_concat]
  · rw [hform, List.dropLast_concat]

/-! ### Line-ending normalization algebra (towards C2 and C10) -/

/-- Every `'\n'` is immediately preceded by `'\r'` (and the string does not
start with a bare `'\n'`).  This is the shape invariant of
`normalizeRawRequest`'s output. -/
def noBareLF : List Char → Bool
  | [] => true
  | c :: rest =>
    if c = '\n' then false
    else if c = '\r' then
      match rest with
      | '\n' :: r2 => noBareLF r2
      | r => noBareLF r
    else noBareLF rest

theorem expandLF_not_lf_head (t : List Char) : ∀ r, expandLF t ≠ '\n' :: r := by
  cases t with
  | nil => intro r h; simp [expandLF] at h
  | cons c cs =>
    intro r h
    by_cases hc : c = '\n'
    · simp [expandLF, hc] at h
    · simp [expandLF, hc] at h

theorem noBareLF_rn (r : List Char) : noBareLF ('\r' :: '\n' :: r) = noBareLF r := rfl

theorem noBareLF_lf (r : List Char) : noBareLF ('\n' :: r) = false := by
  rw [noBareLF.eq_def]
  simp

theorem noBareLF_cons_cr (r : List Char) (h : ∀ r2, r ≠ '\n' :: r2) :
    noBareLF ('\r' :: r) = noBareLF r := by
  cases r with
  | nil => rfl
  | cons d ds =>
    by_cases hd : d = '\n'
    · exact absurd (by rw [hd]) (h ds)
    · simp [noBareLF, hd]

theorem noBareLF_cons_other (c : Char) (r : List Char) (hc1 : c ≠ '\n') (hc2 : c ≠ '\r') :
    noBareLF (c :: r) = noBareLF r := by
  unfold noBareLF
  rw [if_neg hc1, if_neg hc2]
  exact noBareLF.eq_def r

theorem noBareLF_expandLF (t : List Char) : noBareLF (expandLF t) = true := by
  induction t with
  | nil => rfl
  | cons c cs ih =>
    by_cases hc : c = '\n'
    · subst hc
      show noBareLF ('\r' :: '\n' :: expandLF cs) = true
      rw [noBareLF_rn]
      exact ih
    · have he : expandLF (c :: cs) = c :: expandLF cs := by simp [expandLF, hc]
      rw [he]
      by_cases hcr : c = '\r'
      · subst hcr
        rw [noBareLF_cons_cr _ (expandLF_not_lf_head cs)]
        exact ih
      · rw [noBareLF_cons_other c _ hc hcr]
        exact ih

theorem noBareLF_append : ∀ x, noBareLF x = true → ∀ y, noBareLF y = true →
    (∀ r, y ≠ '\n' :: r) → noBareLF (x ++ y) = true := by
  suffices h : ∀ n x, x.length ≤ n → noBareLF x = true → ∀ y, noBareLF y = true →
      (∀ r, y ≠ '\n' :: r) → noBareLF (x ++ y) = true from
    fun x hx y hy hyn => h x.length x le_rfl hx y hy hyn
  intro n
  induction n with
  | zero =>
    intro x hlen hx y hy _
    have : x = [] := List.length_eq_zero.mp (by omega)
    simpa [this] using hy
  | succ n ih =>
    intro x hlen hx y hy hyn
    cases x with
    | nil => simpa using hy
    | cons c x' =>
      by_cases hc : c = '\n'
      · rw [hc, noBareLF_lf] at hx
        exact absurd hx (by simp)
      · by_cases hcr : c = '\r'
        · subst hcr
          cases x' with
          | nil =>
            show noBareLF ('\r' :: y) = true
            rw [noBareLF_cons_cr y hyn]
            exact hy
          | cons d x'' =>
            by_cases hd : d = '\n'
            · subst hd
              rw [noBareLF_rn] at hx
              show noBareLF ('\r' :: '\n' :: (x'' ++ y)) = true
              rw [noBareLF_rn]
              exact ih x'' (by simp at hlen; omega) hx y hy hyn
            · have hne : ∀ r2, d :: x'' ≠ '\n' :: r2 := fun r2 h => hd (List.cons_eq_cons.mp h).1
              rw [noBareLF_cons_cr _ hne] at hx
              rw [List.cons_append, List.cons_append,
                noBareLF_cons_cr (d :: (x'' ++ y))
                  (fun r2 h => hd (List.cons_eq_cons.mp h).1),
                ← List.cons_append]
              exact ih (d :: x'') (by simp at hlen ⊢; omega) hx y hy hyn
        · rw [noBareLF_cons_other c x' hc hcr] at hx
          show noBareLF (c :: (x' ++ y)) = true
          rw [noBareLF_cons_other c _ hc hcr]
          exact ih x' (by simp at hlen; omega) hx y hy hyn

/-- On a string whose newlines are all CRLF pairs, the two `ReplaceAll`
passes of `normalizeRawRequest` are the identity. -/
theorem expandLF_dropCRLF : ∀ u, noBareLF u = true → expandLF (dropCRLF u) = u := by
  suffices h : ∀ n u, u.length ≤ n → noBareLF u = true → expandLF (dropCRLF u) = u from
    fun u hu => h u.length u le_rfl hu
  intro n
  induction n with
  | zero =>
    intro u hlen _
    have : u = [] := List.length_eq_zero.mp (by omega)
    simp [this, dropCRLF, expandLF]
  | succ n ih =>
    intro u hlen hu
    cases u with
    | nil => rfl
    | cons c u' =>
      by_cases hc : c = '\n'
      · rw [hc, noBareLF_lf] at hu
        exact absurd hu (by simp)
      · by_cases hcr : c = '\r'
        · subst hcr
          cases u' with
          | nil => rfl
          | cons d u'' =>
            by_cases hd : d = '\n'
            · subst hd
              rw [noBareLF_rn] at hu
              show expandLF (dropCRLF ('\r' :: '\n' :: u'')) = _
              rw [show dropCRLF ('\r' :: '\n' :: u'') = '\n' :: dropCRLF u'' from by
                simp [dropCRLF]]
              show (if ('\n' : Char) = '\n' then '\r' :: '\n' :: expandLF (dropCRLF u'')
                else _) = _
              rw [if_pos rfl, ih u'' (by simp at hlen; omega) hu]
            · have hne : ∀ r2, d :: u'' ≠ '\n' :: r2 := fun r2 h => hd (List.cons_eq_cons.mp h).1
              rw [noBareLF_cons_cr _ hne] at hu
              rw [show dropCRLF ('\r' :: d :: u'') = '\r' :: dropCRLF (d :: u'') from by
                simp [dropCRLF, hd]]
              show (if ('\r' : Char) = '\n' then _ else '\r' :: expandLF (dropCRLF (d :: u''))) = _
              rw [if_neg (by decide), ih (d :: u'') (by simp at hlen ⊢; omega) hu]
        · rw [noBareLF_cons_other c u' hc hcr] at hu
          cases u' with
          | nil => simp [dropCRLF, expandLF, hc]
          | cons d u'' =>
            rw [show dropCRLF (c :: d :: u'') = c :: dropCRLF (d :: u'') from by
              unfold dropCRLF
              rw [if_neg (fun hand => hcr hand.1)]
              exact congrArg (fun t => c :: t) (dropCRLF.eq_def (d :: u''))]
            show (if c = '\n' then _ else c :: expandLF (dropCRLF (d :: u''))) = _
            rw [if_neg hc, ih (d :: u'') (by simp at hlen ⊢; omega) hu]

theorem noBareLF_normalize (s : List Char) :
    noBareLF (normalizeRawRequest s) = true := by
  have hbase := noBareLF_expandLF (dropCRLF s)
  simp only [normalizeRawRequest]
  split_ifs
  · exact hbase
  · exact noBareLF_append _ hbase crlf (by decide) (fun r h => by simp [crlf] at h)
  · exact noBareLF_append _ hbase sepCRLF2 (by decide) (fun r h => by simp [sepCRLF2] at h)

/-- `normalizeRawRequest` is the identity on any already-normalized,
terminator-carrying string. -/
theorem normalizeRawRequest_fix (u : List Char) (h1 : noBareLF u = true)
    (h2 : endsWithL u sepCRLF2 = true) : normalizeRawRequest u = u := by
  simp only [normalizeRawRequest]
  rw [expandLF_dropCRLF u h1, if_pos h2]

/-! ### Header splitting algebra (towards C2 and C10) -/

/-- No `"\r\n"` pair occurs in the string — the invariant of the pieces
`strings.Split(s, "\r\n")` produces. -/
def pairFreeB : List Char → Bool
  | [] => true
  | [_] => true
  | c1 :: c2 :: rest => !(c1 = '\r' && c2 = '\n') && pairFreeB (c2 :: rest)

theorem pairFreeB_tail {c : Char} {l : List Char} (h : pairFreeB (c :: l) = true) :
    pairFreeB l = true := by
  cases l with
  | nil => rfl
  | cons d ds =>
    unfold pairFreeB at h
    simp only [Bool.and_eq_true] at h
    exact h.2

theorem pairFreeB_head {c d : Char} {l : List Char} (h : pairFreeB (c :: d :: l) = true) :
    ¬ (c = '\r' ∧ d = '\n') := by
  rintro ⟨h1, h2⟩
  unfold pairFreeB at h
  rw [h1, h2] at h
  simp at h

theorem pairFreeB_of_no_lf (l : List Char) (h : '\n' ∉ l) : pairFreeB l = true := by
  induction l with
  | nil => rfl
  | cons c cs ih =>
    cases cs with
    | nil => rfl
    | cons d ds =>
      have hd : d ≠ '\n' := fun hdn => h (by simp [hdn])
      have hrec := ih (fun hm => h (List.mem_cons_of_mem _ hm))
      unfold pairFreeB
      rw [hrec]
      simp [hd]

theorem startsWithL_sep_shift (w : List Char) :
    startsWithL ('\r' :: '\n' :: w) sepCRLF2 = startsWithL w crlf := by
  simp [startsWithL, sepCRLF2, crlf]

/-- `strings.Index(·, "\r\n\r\n")` walks over one pair-free line and its CRLF
terminator whenever the remainder does not immediately begin with another
CRLF. -/
theorem splitFirstSep_line_step (l : List Char) (w : List Char)
    (hl : pairFreeB l = true) (hw : startsWithL w crlf = false) :
    splitFirstSep (l ++ '\r' :: '\n' :: w) =
      (splitFirstSep w).map (fun p => (l ++ '\r' :: '\n' :: p.1, p.2)) := by
  induction l with
  | nil =>
    have h1 : startsWithL ('\r' :: '\n' :: w) sepCRLF2 = false := by
      rw [startsWithL_sep_shift]; exact hw
    have h2 : startsWithL ('\n' :: w) sepCRLF2 = false := by
      simp [startsWithL, sepCRLF2]
    cases hsp : splitFirstSep w with
    | none => simp [splitFirstSep, h1, h2, hsp]
    | some p => obtain ⟨a, b⟩ := p; simp [splitFirstSep, h1, h2, hsp]
  | cons c l' ih =>
    have hpf' : pairFreeB l' = true := pairFreeB_tail hl
    have hns : startsWithL (c :: (l' ++ '\r' :: '\n' :: w)) sepCRLF2 = false := by
      by_contra hb
      rw [Bool.not_eq_false] at hb
      obtain ⟨t, ht⟩ := (startsWithL_iff _ _).mp hb
      cases l' with
      | nil => simp [sepCRLF2] at ht
      | cons d l'' =>
        simp [sepCRLF2] at ht
        exact pairFreeB_head hl ⟨ht.1, ht.2.1⟩
    show splitFirstSep (c :: (l' ++ '\r' :: '\n' :: w)) = _
    rw [splitFirstSep, if_neg (by simp [hns]), ih hpf']
    cases hsp : splitFirstSep w with
    | none => simp
    | some p => obtain ⟨a, b⟩ := p; simp

/-- When the scanned text has no newline at all before the separator, the
separator found is exactly the given one. -/
theorem splitFirstSep_exact_nolf (u v : List Char) (hu : '\n' ∉ u) :
    splitFirstSep (u ++ sepCRLF2 ++ v) = some (u, v) := by
  induction u with
  | nil =>
    show splitFirstSep (sepCRLF2 ++ v) = some ([], v)
    rw [show (sepCRLF2 ++ v : List Char) = '\r' :: ('\n' :: '\r' :: '\n' :: v) from rfl]
    rw [splitFirstSep, if_pos (by simp [startsWithL, sepCRLF2])]
    rfl
  | cons c u' ih =>
    have hu' : '\n' ∉ u' := fun h => hu (List.mem_cons_of_mem _ h)
    have hns : startsWithL (c :: (u' ++ (sepCRLF2 ++ v))) sepCRLF2 = false := by
      by_contra hb
      rw [Bool.not_eq_false] at hb
      obtain ⟨t, ht⟩ := (startsWithL_iff _ _).mp hb
      cases u' with
      | nil => simp [sepCRLF2] at ht
      | cons d u'' =>
        simp [sepCRLF2] at ht
        exact hu (by simp [ht.2.1])
    rw [List.append_assoc, List.cons_append]
    rw [splitFirstSep, if_neg (by simp [hns])]
    rw [← List.append_assoc, ih hu']

theorem splitOnCRLF_ne_nil (s : List Char) : splitOnCRLF s ≠ [] := by
  cases s with
  | nil => simp [splitOnCRLF]
  | cons c1 rest =>
    cases rest with
    | nil => simp [splitOnCRLF]
    | cons c2 rest2 =>
      simp only [splitOnCRLF]
      split
      · simp
      · cases hsp : splitOnCRLF (c2 :: rest2) with
        | nil => simp
        | cons l ls => simp

theorem splitOnCRLF_pairFree_single (l : List Char) (hl : pairFreeB l = true) :
    splitOnCRLF l = [l] := by
  induction l with
  | nil => rfl
  | cons c l' ih =>
    cases l' with
    | nil => rfl
    | cons d l'' =>
      have hpf' := pairFreeB_tail hl
      simp only [splitOnCRLF]
      rw [if_neg (pairFreeB_head hl), ih hpf']

theorem splitOnCRLF_line_step (l w : List Char) (hl : pairFreeB l = true) :
    splitOnCRLF (l ++ '\r' :: '\n' :: w) = l :: splitOnCRLF w := by
  induction l with
  | nil =>
    show splitOnCRLF ('\r' :: '\n' :: w) = [] :: splitOnCRLF w
    simp [splitOnCRLF]
  | cons c l' ih =>
    have hpf' := pairFreeB_tail hl
    cases l' with
    | nil =>
      show splitOnCRLF (c :: '\r' :: '\n' :: w) = [c] :: splitOnCRLF w
      simp only [splitOnCRLF]
      rw [if_neg (fun hand => by simpa using hand.2)]
      simp
    | cons d l'' =>
      show splitOnCRLF (c :: (d :: l'' ++ '\r' :: '\n' :: w)) = _
      simp only [splitOnCRLF]
      rw [if_neg (pairFreeB_head hl)]
      have hstep := ih hpf'
      simp only [List.append_eq, List.cons_append] at hstep ⊢
      rw [hstep]

theorem joinCRLF_nil : joinCRLF [] = [] := rfl

theorem joinCRLF_single (l : List Char) : joinCRLF [l] = l := by
  simp [joinCRLF]

theorem joinCRLF_cons_cons (a b : List Char) (t : List (List Char)) :
    joinCRLF (a :: b :: t) = a ++ '\r' :: '\n' :: joinCRLF (b :: t) := by
  simp [joinCRLF, List.intersperse, crlf]

/-- Splitting the join recovers the pieces, provided every piece is pair-free. -/
theorem splitOnCRLF_joinCRLF (ls : List (List Char)) (hne : ls ≠ [])
    (hpf : ∀ l ∈ ls, pairFreeB l = true) :
    splitOnCRLF (joinCRLF ls) = ls := by
  induction ls with
  | nil => exact absurd rfl hne
  | cons a t ih =>
    cases t with
    | nil =>
      rw [joinCRLF_single]
      exact splitOnCRLF_pairFree_single a (hpf a (by simp))
    | cons b t' =>
      rw [joinCRLF_cons_cons, splitOnCRLF_line_step a _ (hpf a (by simp)),
        ih (by simp) (fun l hl => hpf l (List.mem_cons_of_mem _ hl))]

theorem fixCLStep_foldl (n : Nat) :
    ∀ (hs : List (List Char)) (acc : List (List Char)) (flag : Bool),
      hs.foldl (fixCLStep n) (acc, flag) =
        (acc ++ hs.map (fun l => if isCLline l then clHeaderLine n else l),
         flag || hs.any isCLline) := by
  intro hs
  induction hs with
  | nil => intro acc flag; simp
  | cons a t ih =>
    intro acc flag
    by_cases ha : isCLline a = true
    · rw [List.foldl_cons,
        show fixCLStep n (acc, flag) a = (acc ++ [clHeaderLine n], true) from by
          simp [fixCLStep, ha],
        ih]
      simp [ha]
    · rw [List.foldl_cons,
        show fixCLStep n (acc, flag) a = (acc ++ [a], flag) from by
          simp [fixCLStep, ha],
        ih]
      simp [ha]

/-! ### C2: Content-Length correction -/

theorem noBareLF_of_no_lf (l : List Char) (h : '\n' ∉ l) : noBareLF l = true := by
  induction l with
  | nil => rfl
  | cons c cs ih =>
    have hc : c ≠ '\n' := fun hc => h (by simp [hc])
    have hcs : '\n' ∉ cs := fun hm => h (List.mem_cons_of_mem _ hm)
    by_cases hcr : c = '\r'
    · subst hcr
      rw [noBareLF_cons_cr cs (fun r2 hr2 => hcs (by simp [hr2]))]
      exact ih hcs
    · rw [noBareLF_cons_other c cs hc hcr]
      exact ih hcs

theorem noBareLF_joinCRLF (hs : List (List Char))
    (hlines : ∀ l ∈ hs, '\n' ∉ l) : noBareLF (joinCRLF hs) = true := by
  induction hs with
  | nil => rfl
  | cons a t ih =>
    cases t with
    | nil =>
      rw [joinCRLF_single]
      exact noBareLF_of_no_lf a (hlines a (by simp))
    | cons b t' =>
      rw [joinCRLF_cons_cons]
      refine noBareLF_append a (noBareLF_of_no_lf a (hlines a (by simp))) _ ?_ ?_
      · rw [noBareLF_rn]
        exact ih (fun l hl => hlines l (List.mem_cons_of_mem _ hl))
      · intro r h
        simp at h

/-- `strings.Index(·, "\r\n\r\n")` on a CRLF-joined block of newline-free
lines followed by the separator finds exactly that separator. -/
theorem splitFirstSep_joinCRLF (hs : List (List Char))
    (hlines : ∀ l ∈ hs, l ≠ [] ∧ '\r' ∉ l ∧ '\n' ∉ l) (v : List Char) :
    splitFirstSep (joinCRLF hs ++ sepCRLF2 ++ v) = some (joinCRLF hs, v) := by
  induction hs with
  | nil =>
    rw [joinCRLF_nil]
    exact splitFirstSep_exact_nolf [] v (by simp)
  | cons a t ih =>
    cases t with
    | nil =>
      rw [joinCRLF_single]
      exact splitFirstSep_exact_nolf a v (hlines a (by simp)).2.2
    | cons b t' =>
      have hb := hlines b (by simp)
      obtain ⟨c, b', rfl⟩ := List.exists_cons_of_ne_nil hb.1
      have hline_a := hlines a (by simp)
      rw [joinCRLF_cons_cons]
      have hshape : (a ++ '\r' :: '\n' :: joinCRLF ((c :: b') :: t')) ++ sepCRLF2 ++ v =
          a ++ '\r' :: '\n' :: (joinCRLF ((c :: b') :: t') ++ sepCRLF2 ++ v) := by
        simp
      rw [hshape]
      have hnocrlf : startsWithL (joinCRLF ((c :: b') :: t') ++ sepCRLF2 ++ v) crlf = false := by
        have hchead : ∃ w, joinCRLF ((c :: b') :: t') ++ sepCRLF2 ++ v = c :: w := by
          cases t' with
          | nil => exact ⟨b' ++ sepCRLF2 ++ v, by simp [joinCRLF_single]⟩
          | cons d t'' =>
            exact ⟨b' ++ '\r' :: '\n' :: joinCRLF (d :: t'') ++ sepCRLF2 ++ v, by
              simp [joinCRLF_cons_cons]⟩
        obtain ⟨w, hw⟩ := hchead
        rw [hw]
        have hc : c ≠ '\r' := fun hc => hb.2.1 (by simp [hc])
        simp [startsWithL, crlf, hc]
      rw [splitFirstSep_line_step a _ (pairFreeB_of_no_lf a hline_a.2.2) hnocrlf,
        ih (fun l hl => hlines l (List.mem_cons_of_mem _ hl))]
      rfl

/-- C2 counterexample: for the raw request with header block
`POST / HTTP/1.1 / Host: x / Content-Length: 5` followed by the body
`abc`, preparation does NOT yield a request containing `Content-Length: 3`;
the value written is 7, because normalization first appends the `\r\n\r\n`
terminator, which becomes part of the measured body. -/
theorem prepareRequest_abc_not_three :
    containsL (prepareRequest
        "POST / HTTP/1.1\r\nHost: x\r\nContent-Length: 5\r\n\r\nabc".data)
      ("Content-Length: 3".data) = false ∧
    prepareRequest "POST / HTTP/1.1\r\nHost: x\r\nContent-Length: 5\r\n\r\nabc".data =
      "POST / HTTP/1.1\r\nHost: x\r\nContent-Length: 7\r\n\r\nabc\r\n\r\n".data := by
  constructor <;> decide

theorem concat_last_ne {s x y : List Char} {a b : Char} (hab : a ≠ b)
    (h1 : s = x ++ [a]) (h2 : s = y ++ [b]) : False := by
  have h := congrArg List.getLast? (h1 ▸ h2)
  rw [List.getLast?_concat, List.getLast?_concat] at h
  exact hab (by simpa using h)

/-- C2 (amended): for a raw request whose CRLF-joined header block (nonempty
header lines free of CR and LF bytes) is followed by the body `abc` with no
trailing line terminator, preparation rewrites every `Content-Length` header
in place to `Content-Length: 7` (appending one if absent), leaving every
other header unchanged and in its original position.  The value is 7 — not
the 3 bytes of `abc` — because `normalizeRawRequest` appends the `\r\n\r\n`
terminator before `fixContentLength` measures the body section. -/
theorem prepareRequest_body_abc (hs : List (List Char)) (hne : hs ≠ [])
    (hlines : ∀ l ∈ hs, l ≠ [] ∧ '\r' ∉ l ∧ '\n' ∉ l) :
    prepareRequest (joinCRLF hs ++ sepCRLF2 ++ "abc".data) =
      joinCRLF (hs.map (fun l => if isCLline l then clHeaderLine 7 else l) ++
        (if hs.any isCLline then [] else [clHeaderLine 7])) ++
      sepCRLF2 ++ ("abc".data ++ sepCRLF2) := by
  have hnb : noBareLF (joinCRLF hs ++ sepCRLF2 ++ "abc".data) = true := by
    rw [List.append_assoc]
    refine noBareLF_append _ (noBareLF_joinCRLF hs (fun l hl => (hlines l hl).2.2)) _
      (by decide) ?_
    intro r h
    simp [sepCRLF2] at h
  have h1 : endsWithL (joinCRLF hs ++ sepCRLF2 ++ "abc".data) sepCRLF2 = false := by
    by_contra hb
    rw [Bool.not_eq_false] at hb
    obtain ⟨y, hy⟩ := (endsWithL_iff _ _).mp hb
    exact concat_last_ne (show 'c' ≠ '\n' by decide)
      (show joinCRLF hs ++ sepCRLF2 ++ "abc".data =
          (joinCRLF hs ++ sepCRLF2 ++ ['a', 'b']) ++ ['c'] by
        simp [show "abc".data = ['a', 'b', 'c'] from rfl])
      (show joinCRLF hs ++ sepCRLF2 ++ "abc".data = (y ++ ['\r', '\n', '\r']) ++ ['\n'] by
        rw [hy]; simp [sepCRLF2])
  have h2 : endsWithL (joinCRLF hs ++ sepCRLF2 ++ "abc".data) crlf = false := by
    by_contra hb
    rw [Bool.not_eq_false] at hb
    obtain ⟨y, hy⟩ := (endsWithL_iff _ _).mp hb
    exact concat_last_ne (show 'c' ≠ '\n' by decide)
      (show joinCRLF hs ++ sepCRLF2 ++ "abc".data =
          (joinCRLF hs ++ sepCRLF2 ++ ['a', 'b']) ++ ['c'] by
        simp [show "abc".data = ['a', 'b', 'c'] from rfl])
      (show joinCRLF hs ++ sepCRLF2 ++ "abc".data = (y ++ ['\r']) ++ ['\n'] by
        rw [hy]; simp [crlf])
  have hnorm : normalizeRawRequest (joinCRLF hs ++ sepCRLF2 ++ "abc".data) =
      joinCRLF hs ++ sepCRLF2 ++ ("abc".data ++ sepCRLF2) := by
    simp only [normalizeRawRequest]
    rw [expandLF_dropCRLF _ hnb, h1, h2]
    simp
  unfold prepareRequest
  rw [hnorm]
  unfold fixContentLength
  rw [splitFirstSep_joinCRLF hs hlines ("abc".data ++ sepCRLF2)]
  simp only
  rw [splitOnCRLF_joinCRLF hs hne (fun l hl => pairFreeB_of_no_lf l (hlines l hl).2.2)]
  rw [show ("abc".data ++ sepCRLF2).length = 7 from rfl]
  rw [fixCLStep_foldl 7 hs [] false]
  simp only [List.nil_append, Bool.false_or]
  by_cases hany : hs.any isCLline = true
  · rw [hany]
    simp
  · rw [Bool.not_eq_true] at hany
    rw [hany]
    simp

theorem prepareRequest_body_abc_witness :
    (["POST / HTTP/1.1".data, "Host: x".data, "Content-Length: 5".data] ≠
      ([] : List (List Char))) ∧
    prepareRequest (joinCRLF ["POST / HTTP/1.1".data, "Host: x".data,
        "Content-Length: 5".data] ++ sepCRLF2 ++ "abc".data) =
      joinCRLF (["POST / HTTP/1.1".data, "Host: x".data, "Content-Length: 5".data].map
          (fun l => if isCLline l then clHeaderLine 7 else l) ++
        (if ["POST / HTTP/1.1".data, "Host: x".data, "Content-Length: 5".data].any isCLline
          then [] else [clHeaderLine 7])) ++
      sepCRLF2 ++ ("abc".data ++ sepCRLF2) :=
  ⟨by decide,
   prepareRequest_body_abc
     ["POST / HTTP/1.1".data, "Host: x".data, "Content-Length: 5".data]
     (by decide) (by decide)⟩

/-! ### C10: idempotence of the request preparer -/

theorem startsWithL_append_right {x pat : List Char} (z : List Char)
    (h : startsWithL x pat = true) : startsWithL (x ++ z) pat = true := by
  obtain ⟨t, rfl⟩ := (startsWithL_iff _ _).mp h
  rw [List.append_assoc]
  exact (startsWithL_iff _ _).mpr ⟨t ++ z, rfl⟩

theorem splitFirstSep_cons_none {c : Char} {r : List Char}
    (h : splitFirstSep (c :: r) = none) :
    startsWithL (c :: r) sepCRLF2 = false ∧ splitFirstSep r = none := by
  rw [splitFirstSep] at h
  by_cases hsw : startsWithL (c :: r) sepCRLF2 = true
  · rw [if_pos hsw] at h
    simp at h
  · rw [if_neg hsw] at h
    refine ⟨by simpa using hsw, ?_⟩
    cases hrec : splitFirstSep r with
    | none => rfl
    | some p => rw [hrec] at h; obtain ⟨a, b⟩ := p; simp at h

/-- The head section found by `strings.Index(·, "\r\n\r\n")` contains no
separator occurrence of its own. -/
theorem splitFirstSep_head_none : ∀ {s h b : List Char},
    splitFirstSep s = some (h, b) → splitFirstSep h = none := by
  intro s
  induction s with
  | nil => intro h b hs; simp [splitFirstSep] at hs
  | cons c r ih =>
    intro h b hs
    rw [splitFirstSep] at hs
    by_cases hsw : startsWithL (c :: r) sepCRLF2 = true
    · rw [if_pos hsw] at hs
      simp at hs
      obtain ⟨rfl, rfl⟩ := hs
      rfl
    · rw [if_neg hsw] at hs
      cases hrec : splitFirstSep r with
      | none => rw [hrec] at hs; simp at hs
      | some p =>
        rw [hrec] at hs
        obtain ⟨h', b'⟩ := p
        simp at hs
        have hnone' := ih hrec
        obtain ⟨rfl, rfl⟩ := hs
        rw [splitFirstSep]
        have hsw2 : startsWithL (c :: h') sepCRLF2 = false := by
          by_contra hb2
          rw [Bool.not_eq_false] at hb2
          have hdec := splitFirstSep_decomp hrec
          have : startsWithL (c :: r) sepCRLF2 = true := by
            have := startsWithL_append_right (sepCRLF2 ++ b') hb2
            rw [show (c :: h') ++ (sepCRLF2 ++ b') = c :: (h' ++ sepCRLF2 ++ b') from by
              simp] at this
            rw [← hdec] at this
            exact this
          exact hsw this
        rw [if_neg (by simp [hsw2]), hnone']

/-- Minimality: the split returned by `strings.Index` is at the leftmost
occurrence. -/
theorem splitFirstSep_min : ∀ {s h b : List Char}, splitFirstSep s = some (h, b) →
    ∀ y v, s = y ++ sepCRLF2 ++ v → h.length ≤ y.length := by
  intro s
  induction s with
  | nil => intro h b hs; simp [splitFirstSep] at hs
  | cons c r ih =>
    intro h b hs y v hyv
    rw [splitFirstSep] at hs
    by_cases hsw : startsWithL (c :: r) sepCRLF2 = true
    · rw [if_pos hsw] at hs
      simp at hs
      obtain ⟨rfl, rfl⟩ := hs
      simp
    · rw [if_neg hsw] at hs
      cases hrec : splitFirstSep r with
      | none => rw [hrec] at hs; simp at hs
      | some p =>
        rw [hrec] at hs
        obtain ⟨h', b'⟩ := p
        simp at hs
        cases y with
        | nil =>
          exfalso
          apply hsw
          rw [hyv]
          simp only [List.nil_append]
          exact startsWithL_append_right v (by
            exact (startsWithL_iff _ _).mpr ⟨[], by simp⟩)
        | cons cy y' =>
          have hcy : c = cy ∧ r = y' ++ sepCRLF2 ++ v := by
            have h2 := hyv
            simp at h2
            exact ⟨h2.1, by simp [h2.2]⟩
          obtain ⟨rfl, rfl⟩ := hs
          simp only [List.length_cons]
          exact Nat.succ_le_succ (ih hrec y' v hcy.2)

/-- The head section cannot end with a CRLF pair (that would shift the found
separator two bytes earlier). -/
theorem splitFirstSep_head_not_crlf {s h b : List Char}
    (hs : splitFirstSep s = some (h, b)) : endsWithL h crlf = false := by
  by_contra hb2
  rw [Bool.not_eq_false] at hb2
  obtain ⟨y, hy⟩ := (endsWithL_iff _ _).mp hb2
  have hdec := splitFirstSep_decomp hs
  have hshape : s = y ++ sepCRLF2 ++ ('\r' :: '\n' :: b) := by
    rw [hdec, hy]
    simp [sepCRLF2, crlf]
  have := splitFirstSep_min hs y _ hshape
  rw [hy] at this
  simp [crlf] at this

theorem splitFirstSep_exact_pairFree : ∀ (u : List Char), pairFreeB u = true → ∀ v,
    splitFirstSep (u ++ sepCRLF2 ++ v) = some (u, v) := by
  intro u
  induction u with
  | nil => intro _ v; exact splitFirstSep_exact_nolf [] v (by simp)
  | cons c u' ih =>
    intro hpf v
    have hns : startsWithL (c :: (u' ++ (sepCRLF2 ++ v))) sepCRLF2 = false := by
      by_contra hb
      rw [Bool.not_eq_false] at hb
      obtain ⟨t, ht⟩ := (startsWithL_iff _ _).mp hb
      cases u' with
      | nil => simp [sepCRLF2] at ht
      | cons d u'' =>
        simp [sepCRLF2] at ht
        exact pairFreeB_head hpf ⟨ht.1, ht.2.1⟩
    rw [List.append_assoc, List.cons_append, splitFirstSep, if_neg (by simp [hns]),
      ← List.append_assoc, ih (pairFreeB_tail hpf) v]

theorem splitOnCRLF_cons_head (c : Char) (r : List Char)
    (hno : startsWithL (c :: r) crlf = false) :
    ∃ l' ls, splitOnCRLF (c :: r) = (c :: l') :: ls := by
  cases r with
  | nil => exact ⟨[], [], rfl⟩
  | cons c2 r2 =>
    have hpair : ¬ (c = '\r' ∧ c2 = '\n') := by
      rintro ⟨rfl, rfl⟩
      simp [startsWithL, crlf] at hno
    simp only [splitOnCRLF]
    rw [if_neg hpair]
    cases hsp : splitOnCRLF (c2 :: r2) with
    | nil => exact absurd hsp (splitOnCRLF_ne_nil _)
    | cons m ms => exact ⟨m, ms, rfl⟩

/-- Every piece `strings.Split(·, "\r\n")` produces is pair-free. -/
theorem splitOnCRLF_pieces_pairFree : ∀ (s : List Char), ∀ p ∈ splitOnCRLF s,
    pairFreeB p = true := by
  suffices hN : ∀ n s, s.length ≤ n → ∀ p ∈ splitOnCRLF s, pairFreeB p = true from
    fun s => hN s.length s le_rfl
  intro n
  induction n with
  | zero =>
    intro s hlen p hp
    have : s = [] := List.length_eq_zero.mp (by omega)
    subst this
    simp [splitOnCRLF] at hp
    subst hp
    rfl
  | succ n ih =>
    intro s hlen p hp
    cases s with
    | nil =>
      simp [splitOnCRLF] at hp
      subst hp
      rfl
    | cons c1 rest =>
      cases rest with
      | nil =>
        simp [splitOnCRLF] at hp
        simp [hp, pairFreeB]
      | cons c2 rest2 =>
        simp only [splitOnCRLF] at hp
        by_cases hpair : c1 = '\r' ∧ c2 = '\n'
        · rw [if_pos hpair] at hp
          rcases List.mem_cons.mp hp with h | h
          · subst h; rfl
          · exact ih rest2 (by simp at hlen; omega) p h
        · rw [if_neg hpair] at hp
          cases hsp : splitOnCRLF (c2 :: rest2) with
          | nil => exact absurd hsp (splitOnCRLF_ne_nil _)
          | cons m ms =>
            rw [hsp] at hp
            rcases List.mem_cons.mp hp with h | h
            · subst h
              have hm : pairFreeB m = true :=
                ih (c2 :: rest2) (by simp at hlen ⊢; omega) m (by rw [hsp]; simp)
              cases m with
              | nil => rfl
              | cons d m' =>
                have hd : d = c2 := by
                  by_cases hsw2 : startsWithL (c2 :: rest2) crlf = true
                  · obtain ⟨t, ht⟩ := (startsWithL_iff _ _).mp hsw2
                    simp [crlf] at ht
                    obtain ⟨rfl, rfl⟩ := ht
                    rw [show splitOnCRLF ('\r' :: '\n' :: t) = [] :: splitOnCRLF t from by
                      simp [splitOnCRLF]] at hsp
                    simp at hsp
                  · obtain ⟨l', ls', hl'⟩ :=
                      splitOnCRLF_cons_head c2 rest2 (by simpa using hsw2)
                    rw [hl'] at hsp
                    exact ((List.cons_eq_cons.mp (List.cons_eq_cons.mp hsp).1).1).symm
                subst hd
                unfold pairFreeB
                rw [hm]
                simp only [Bool.and_true, Bool.not_eq_true, Bool.not_eq_true']
                simp only [Bool.and_eq_true, Bool.not_eq_true', Bool.and_eq_false_iff,
                  decide_eq_false_iff_not, decide_eq_true_eq]
                by_cases h1 : c1 = '\r'
                · exact Or.inr (fun h2 => hpair ⟨h1, h2⟩)
                · exact Or.inl h1
            · exact ih (c2 :: rest2) (by simp at hlen ⊢; omega) p (by rw [hsp]; simp [h])

/-- When the split text contains no `"\r\n\r\n"` and does not end in CRLF,
every piece after the first is nonempty. -/
theorem splitOnCRLF_tail_ne_nil : ∀ (s : List Char), splitFirstSep s = none →
    endsWithL s crlf = false → ∀ p ∈ (splitOnCRLF s).tail, p ≠ [] := by
  suffices hN : ∀ n s, s.length ≤ n → splitFirstSep s = none →
      endsWithL s crlf = false → ∀ p ∈ (splitOnCRLF s).tail, p ≠ [] from
    fun s => hN s.length s le_rfl
  intro n
  induction n with
  | zero =>
    intro s hlen _ _ p hp
    have : s = [] := List.length_eq_zero.mp (by omega)
    subst this
    simp [splitOnCRLF] at hp
  | succ n ih =>
    intro s hlen hnone hend p hp
    cases s with
    | nil => simp [splitOnCRLF] at hp
    | cons c1 rest =>
      cases rest with
      | nil => simp [splitOnCRLF] at hp
      | cons c2 rest2 =>
        have hch1 := splitFirstSep_cons_none hnone
        have hch2 := splitFirstSep_cons_none hch1.2
        simp only [splitOnCRLF] at hp
        by_cases hpair : c1 = '\r' ∧ c2 = '\n'
        · obtain ⟨rfl, rfl⟩ := hpair
          rw [if_pos ⟨rfl, rfl⟩] at hp
          rw [List.tail_cons] at hp
          have hrne : rest2 ≠ [] := by
            rintro rfl
            simp [endsWithL, startsWithL, crlf] at hend
          obtain ⟨c3, r3, rfl⟩ := List.exists_cons_of_ne_nil hrne
          have hnsw : startsWithL (c3 :: r3) crlf = false := by
            by_contra hb
            rw [Bool.not_eq_false] at hb
            obtain ⟨t, ht⟩ := (startsWithL_iff _ _).mp hb
            apply absurd hch1.1
            rw [Bool.not_eq_false]
            refine (startsWithL_iff _ _).mpr ⟨t, ?_⟩
            rw [show ('\r' :: '\n' :: (c3 :: r3) : List Char) =
              crlf ++ (c3 :: r3) from rfl, ht]
            simp [sepCRLF2, crlf]
          obtain ⟨l', ls', hl'⟩ := splitOnCRLF_cons_head c3 r3 hnsw
          rw [hl'] at hp
          rcases List.mem_cons.mp hp with h | h
          · subst h; simp
          · refine ih (c3 :: r3) (by simp at hlen ⊢; omega) hch2.2 ?_ p (by rw [hl']; simpa)
            by_contra hb
            rw [Bool.not_eq_false] at hb
            obtain ⟨y, hy⟩ := (endsWithL_iff _ _).mp hb
            apply absurd hend
            rw [Bool.not_eq_false]
            refine (endsWithL_iff _ _).mpr ⟨'\r' :: '\n' :: y, ?_⟩
            rw [show ('\r' :: '\n' :: (c3 :: r3) : List Char) =
              ('\r' :: '\n' :: []) ++ (c3 :: r3) from rfl, hy]
            simp
        · rw [if_neg hpair] at hp
          cases hsp : splitOnCRLF (c2 :: rest2) with
          | nil => exact absurd hsp (splitOnCRLF_ne_nil _)
          | cons m ms =>
            rw [hsp] at hp
            rw [List.tail_cons] at hp
            refine ih (c2 :: rest2) (by simp at hlen ⊢; omega) hch1.2 ?_ p (by rw [hsp]; simpa)
            by_contra hb
            rw [Bool.not_eq_false] at hb
            obtain ⟨y, hy⟩ := (endsWithL_iff _ _).mp hb
            apply absurd hend
            rw [Bool.not_eq_false]
            refine (endsWithL_iff _ _).mpr ⟨c1 :: y, ?_⟩
            rw [show (c1 :: (c2 :: rest2) : List Char) = [c1] ++ (c2 :: rest2) from rfl, hy]
            simp

theorem decDigVal_digitChar (d : Nat) (hd : d < 10) :
    decDigVal (Nat.digitChar d) = some d := by
  interval_cases d <;> decide

theorem decDigVal_ne_crlf (c : Char) (h : (decDigVal c).isSome) : c ≠ '\r' ∧ c ≠ '\n' := by
  have hr : '0' ≤ c ∧ c ≤ '9' := by
    by_contra hcon
    simp only [decDigVal] at h
    rw [if_neg hcon] at h
    simp at h
  constructor <;> (intro hc; rw [hc] at hr; revert hr; decide)

theorem natToDec_no_crlf (n : Nat) : '\n' ∉ natToDec n ∧ '\r' ∉ natToDec n := by
  have hmem : ∀ c ∈ natToDec n, (decDigVal c).isSome := by
    unfold natToDec
    split
    · intro c hc
      simp at hc
      subst hc
      decide
    · refine natToBaseCore_mem 10 _ (by omega) ?_ n n [] (by simp)
      intro d hd
      simp [decDigVal_digitChar d hd]
  exact ⟨fun hin => (decDigVal_ne_crlf _ (hmem _ hin)).2 rfl,
         fun hin => (decDigVal_ne_crlf _ (hmem _ hin)).1 rfl⟩

theorem clHeaderLine_no_lf (n : Nat) : '\n' ∉ clHeaderLine n := by
  unfold clHeaderLine
  intro hin
  rcases List.mem_append.mp hin with h | h
  · revert h; decide
  · exact (natToDec_no_crlf n).1 h

theorem clHeaderLine_ne_nil (n : Nat) : clHeaderLine n ≠ [] := by
  unfold clHeaderLine
  simp

theorem isCLline_clHeaderLine (n : Nat) : isCLline (clHeaderLine n) = true := by
  unfold isCLline clHeaderLine lowerL
  rw [List.map_append,
    show ("Content-Length: ".data).map Char.toLower = "content-length: ".data from by decide]
  exact startsWithL_append_right _ (by decide)

theorem startsWithL_crlf_cons_cons (c d : Char) (x : List Char) :
    startsWithL (c :: d :: x) crlf = (decide (c = '\r') && decide (d = '\n')) := by
  simp [startsWithL, crlf]

theorem and_decide_false {p q : Prop} [Decidable p] [Decidable q] (h : ¬ (p ∧ q)) :
    (decide p && decide q) = false := by
  rcases Decidable.em p with hp | hp
  · rw [decide_eq_true hp, Bool.true_and]
    exact decide_eq_false (fun hq => h ⟨hp, hq⟩)
  · rw [decide_eq_false hp, Bool.false_and]

/-- Generalized form of `splitFirstSep_joinCRLF` for pair-free pieces whose
non-first members are nonempty (the shape of a rebuilt header block). -/
theorem splitFirstSep_joinCRLF_pf : ∀ (qs : List (List Char)), qs ≠ [] →
    (∀ p ∈ qs, pairFreeB p = true) → (∀ p ∈ qs.tail, p ≠ []) → ∀ v,
    splitFirstSep (joinCRLF qs ++ sepCRLF2 ++ v) = some (joinCRLF qs, v) := by
  intro qs
  induction qs with
  | nil => intro h; exact absurd rfl h
  | cons a t ih =>
    intro _ hpf htail v
    cases t with
    | nil =>
      rw [joinCRLF_single]
      exact splitFirstSep_exact_pairFree a (hpf a (by simp)) v
    | cons b t' =>
      have hbne : b ≠ [] := htail b (by simp)
      obtain ⟨c, b', rfl⟩ := List.exists_cons_of_ne_nil hbne
      have hpfb : pairFreeB (c :: b') = true := hpf _ (by simp)
      rw [joinCRLF_cons_cons]
      have hshape : (a ++ '\r' :: '\n' :: joinCRLF ((c :: b') :: t')) ++ sepCRLF2 ++ v =
          a ++ '\r' :: '\n' :: (joinCRLF ((c :: b') :: t') ++ sepCRLF2 ++ v) := by
        simp
      rw [hshape]
      have hnocrlf : startsWithL (joinCRLF ((c :: b') :: t') ++ sepCRLF2 ++ v) crlf
          = false := by
        cases t' with
        | nil =>
          rw [joinCRLF_single]
          cases b' with
          | nil =>
            rw [show ([c] ++ sepCRLF2 ++ v : List Char) =
              c :: '\r' :: ('\n' :: '\r' :: '\n' :: v) from by simp [sepCRLF2]]
            rw [startsWithL_crlf_cons_cons]
            exact and_decide_false (fun hand => absurd hand.2 (by decide))
          | cons d b'' =>
            rw [show ((c :: d :: b'') ++ sepCRLF2 ++ v : List Char) =
              c :: d :: (b'' ++ sepCRLF2 ++ v) from by simp]
            rw [startsWithL_crlf_cons_cons]
            exact and_decide_false (pairFreeB_head hpfb)
        | cons e t'' =>
          rw [joinCRLF_cons_cons]
          cases b' with
          | nil =>
            rw [show (([c] ++ '\r' :: '\n' :: joinCRLF (e :: t'')) ++ sepCRLF2 ++ v :
                List Char) =
              c :: '\r' :: ('\n' :: joinCRLF (e :: t'') ++ sepCRLF2 ++ v) from by simp]
            rw [startsWithL_crlf_cons_cons]
            exact and_decide_false (fun hand => absurd hand.2 (by decide))
          | cons d b'' =>
            rw [show (((c :: d :: b'') ++ '\r' :: '\n' :: joinCRLF (e :: t'')) ++
                sepCRLF2 ++ v : List Char) =
              c :: d :: (b'' ++ '\r' :: '\n' :: joinCRLF (e :: t'') ++ sepCRLF2 ++ v) from by
                simp]
            rw [startsWithL_crlf_cons_cons]
            exact and_decide_false (pairFreeB_head hpfb)
      rw [splitFirstSep_line_step a _ (hpf a (by simp)) hnocrlf,
        ih (by simp) (fun p hp => hpf p (List.mem_cons_of_mem _ hp))
          (fun p hp => htail p (List.mem_cons_of_mem _ hp)) v]
      rfl

/-- The rebuilt header-line list of one `fixContentLength` pass
(the loop of lines 438–453 of `race_request.go`, via `fixCLStep_foldl`). -/
def rebuiltOf (lines : List (List Char)) (n : Nat) : List (List Char) :=
  if !lines.any isCLline && decide (n > 0) then
    lines.map (fun l => if isCLline l then clHeaderLine n else l) ++ [clHeaderLine n]
  else lines.map (fun l => if isCLline l then clHeaderLine n else l)

theorem fixContentLength_eq {s h b : List Char} (hsp : splitFirstSep s = some (h, b)) :
    fixContentLength s =
      joinCRLF (rebuiltOf (splitOnCRLF h) b.length) ++ sepCRLF2 ++ b := by
  unfold fixContentLength
  rw [hsp]
  simp only
  rw [fixCLStep_foldl]
  simp only [List.nil_append, Bool.false_or]
  rfl

theorem map_isCL_fix (n : Nat) (qs : List (List Char))
    (hq : ∀ l ∈ qs, isCLline l = true → l = clHeaderLine n) :
    qs.map (fun l => if isCLline l then clHeaderLine n else l) = qs := by
  induction qs with
  | nil => rfl
  | cons a t ih =>
    simp only [List.map_cons]
    rw [ih (fun l hl => hq l (List.mem_cons_of_mem _ hl))]
    by_cases ha : isCLline a = true
    · rw [if_pos ha, ← hq a (by simp) ha]
    · rw [if_neg ha]

theorem rebuiltOf_CLprop (lines : List (List Char)) (n : Nat) :
    ∀ l ∈ rebuiltOf lines n, isCLline l = true → l = clHeaderLine n := by
  have hmapcase : ∀ l ∈ lines.map (fun l => if isCLline l then clHeaderLine n else l),
      isCLline l = true → l = clHeaderLine n := by
    intro l hl
    obtain ⟨p, hp, rfl⟩ := List.mem_map.mp hl
    by_cases hcl : isCLline p = true
    · rw [if_pos hcl]
      intro _
      rfl
    · rw [if_neg hcl]
      intro hc
      exact absurd hc hcl
  intro l hl
  unfold rebuiltOf at hl
  split at hl
  · rcases List.mem_append.mp hl with hq | hq
    · exact hmapcase l hq
    · simp at hq
      subst hq
      intro _
      rfl
  · exact hmapcase l hl

theorem rebuiltOf_idem (lines : List (List Char)) (n : Nat) :
    rebuiltOf (rebuiltOf lines n) n = rebuiltOf lines n := by
  have hfix := map_isCL_fix n (rebuiltOf lines n) (rebuiltOf_CLprop lines n)
  have hcond : (!(rebuiltOf lines n).any isCLline && decide (n > 0)) = false := by
    by_cases hany : lines.any isCLline = true
    · have hRany : (rebuiltOf lines n).any isCLline = true := by
        unfold rebuiltOf
        rw [hany]
        simp only [Bool.not_true, Bool.false_and, if_false]
        obtain ⟨p, hp, hcl⟩ := List.any_eq_true.mp hany
        exact List.any_eq_true.mpr ⟨clHeaderLine n,
          List.mem_map.mpr ⟨p, hp, by rw [if_pos hcl]⟩, isCLline_clHeaderLine n⟩
      rw [hRany]
      rfl
    · by_cases hn : 0 < n
      · have hany' : lines.any isCLline = false := by simpa using hany
        have hRany : (rebuiltOf lines n).any isCLline = true := by
          unfold rebuiltOf
          rw [hany']
          simp only [Bool.not_false, Bool.true_and]
          rw [if_pos (by simpa using hn)]
          exact List.any_eq_true.mpr ⟨clHeaderLine n, by simp, isCLline_clHeaderLine n⟩
        rw [hRany]
        rfl
      · have hdn : decide (n > 0) = false := by simpa using hn
        rw [hdn, Bool.and_false]
  have hunf : rebuiltOf (rebuiltOf lines n) n =
      if !(rebuiltOf lines n).any isCLline && decide (n > 0) then
        (rebuiltOf lines n).map (fun l => if isCLline l then clHeaderLine n else l) ++
          [clHeaderLine n]
      else (rebuiltOf lines n).map (fun l => if isCLline l then clHeaderLine n else l) := rfl
  rw [hunf, hcond, if_neg (by simp), hfix]

theorem fixContentLength_idem (s : List Char) :
    fixContentLength (fixContentLength s) = fixContentLength s := by
  cases hsp : splitFirstSep s with
  | none =>
    have hfs : fixContentLength s = s := by
      unfold fixContentLength
      rw [hsp]
    rw [hfs, hfs]
  | some p =>
    obtain ⟨h, b⟩ := p
    have hnone := splitFirstSep_head_none hsp
    have hnend := splitFirstSep_head_not_crlf hsp
    have hpf := splitOnCRLF_pieces_pairFree h
    have htail := splitOnCRLF_tail_ne_nil h hnone (by simpa [crlf] using hnend)
    have hfs := fixContentLength_eq hsp
    have hmapcase : ∀ q ∈ (splitOnCRLF h).map
        (fun l => if isCLline l then clHeaderLine b.length else l), pairFreeB q = true := by
      intro q hq
      obtain ⟨p0, hp0, rfl⟩ := List.mem_map.mp hq
      by_cases hcl : isCLline p0 = true
      · rw [if_pos hcl]
        exact pairFreeB_of_no_lf _ (clHeaderLine_no_lf _)
      · rw [if_neg hcl]
        exact hpf p0 hp0
    have hRpf : ∀ p ∈ rebuiltOf (splitOnCRLF h) b.length, pairFreeB p = true := by
      intro p hp
      unfold rebuiltOf at hp
      split at hp
      · rcases List.mem_append.mp hp with hq | hq
        · exact hmapcase _ hq
        · simp at hq
          subst hq
          exact pairFreeB_of_no_lf _ (clHeaderLine_no_lf _)
      · exact hmapcase _ hp
    have hRne : rebuiltOf (splitOnCRLF h) b.length ≠ [] := by
      unfold rebuiltOf
      split
      · simp
      · intro hmap
        exact splitOnCRLF_ne_nil h (List.map_eq_nil_iff.mp hmap)
    have htailmap : ∀ p ∈ ((splitOnCRLF h).map
        (fun l => if isCLline l then clHeaderLine b.length else l)).tail, p ≠ [] := by
      intro p hp
      have hmt : ((splitOnCRLF h).map
          (fun l => if isCLline l then clHeaderLine b.length else l)).tail =
          (splitOnCRLF h).tail.map
          (fun l => if isCLline l then clHeaderLine b.length else l) := by
        cases splitOnCRLF h <;> rfl
      rw [hmt] at hp
      obtain ⟨p0, hp0, rfl⟩ := List.mem_map.mp hp
      by_cases hcl : isCLline p0 = true
      · rw [if_pos hcl]
        exact clHeaderLine_ne_nil _
      · rw [if_neg hcl]
        exact htail p0 hp0
    have hRtail : ∀ p ∈ (rebuiltOf (splitOnCRLF h) b.length).tail, p ≠ [] := by
      unfold rebuiltOf
      split
      · intro p hp
        cases hm : (splitOnCRLF h).map
            (fun l => if isCLline l then clHeaderLine b.length else l) with
        | nil => exact absurd (List.map_eq_nil_iff.mp hm) (splitOnCRLF_ne_nil h)
        | cons m0 mrest =>
          rw [hm, List.cons_append, List.tail_cons] at hp
          rcases List.mem_append.mp hp with hq | hq
          · refine htailmap p ?_
            rw [hm, List.tail_cons]
            exact hq
          · simp at hq
            subst hq
            exact clHeaderLine_ne_nil _
      · exact htailmap
    have hsp2 : splitFirstSep (fixContentLength s) =
        some (joinCRLF (rebuiltOf (splitOnCRLF h) b.length), b) := by
      rw [hfs]
      exact splitFirstSep_joinCRLF_pf _ hRne hRpf hRtail b
    have hfs2 := fixContentLength_eq hsp2
    rw [hfs2, splitOnCRLF_joinCRLF _ hRne hRpf, rebuiltOf_idem, ← hfs]

/-! ### Header-loop characterization (`readHTTPResponse`, lines 326–372) -/

/-- A header block as a list of lines (each without its terminating `'\n'`),
serialized the way the socket delivers it to `bufio.ReadString('\n')`. -/
def linesStream (hs : List (List Char)) : List Char :=
  (hs.map (fun h => h ++ ['\n'])).flatten

/-- One header line's effect on the tracked `contentLength`
(lines 341–346 of `race_request.go`). -/
def clStep (c : Int) (h : List Char) : Int :=
  let t := trimSpace h
  if startsWithL (lowerL t) ("content-length:".data) then
    match atoiL (trimSpace (t.drop 15)) with
    | some v => v
    | none => c
  else c

/-- One header line's effect on the tracked `chunked` flag
(lines 349–354 of `race_request.go`). -/
def chStep (c : Bool) (h : List Char) : Bool :=
  let t := trimSpace h
  if startsWithL (lowerL t) ("transfer-encoding:".data) then
    c || containsL (lowerL (trimSpace (t.drop 18))) ("chunked".data)
  else c

def clFold (hs : List (List Char)) (cl : Int) : Int := hs.foldl clStep cl

def chFold (hs : List (List Char)) (ch : Bool) : Bool := hs.foldl chStep ch

/-- Claim-side predicate: this header line is a `Transfer-Encoding` header
whose value contains the substring `chunked`, case-insensitively. -/
def teChunkedLine (h : List Char) : Bool :=
  startsWithL (lowerL (trimSpace h)) ("transfer-encoding:".data) &&
    containsL (lowerL (trimSpace ((trimSpace h).drop 18))) ("chunked".data)

/-- Claim-side predicate: some `Transfer-Encoding` header value contains the
substring `chunked` (case-insensitive). -/
def hasChunkedTE (hs : List (List Char)) : Bool := hs.any teChunkedLine

/-- The status line plus header echo that `readHTTPResponse` accumulates
before any body byte. -/
def headEcho (sl : List Char) (hs : List (List Char)) : List Char :=
  sl ++ ['\n'] ++ linesStream hs ++ ['\n']

theorem linesStream_nil : linesStream [] = [] := rfl

theorem linesStream_cons (h : List Char) (t : List (List Char)) :
    linesStream (h :: t) = h ++ '\n' :: linesStream t := by
  simp [linesStream, List.append_assoc]

theorem linesStream_length_ge (hs : List (List Char)) :
    hs.length ≤ (linesStream hs).length := by
  induction hs with
  | nil => simp [linesStream]
  | cons h t ih =>
    rw [linesStream_cons]
    simp only [List.length_cons, List.length_append, List.length_cons]
    omega

theorem trimRight_append_nl (h : List Char) : trimRight (h ++ ['\n']) = trimRight h := by
  simp [trimRight, List.dropWhile_cons, isSpaceB]

theorem trimSpace_append_nl (h : List Char) : trimSpace (h ++ ['\n']) = trimSpace h := by
  unfold trimSpace
  rw [List.dropWhile_append]
  by_cases he : (h.dropWhile isSpaceB).isEmpty
  · rw [if_pos he]
    rw [List.isEmpty_iff] at he
    rw [he]
    decide
  · rw [if_neg he]
    exact trimRight_append_nl _

theorem chStep_or (c : Bool) (h : List Char) : chStep c h = (c || teChunkedLine h) := by
  unfold chStep teChunkedLine
  by_cases hs : startsWithL (lowerL (trimSpace h)) ("transfer-encoding:".data) = true
  · simp [hs]
  · simp only [Bool.not_eq_true] at hs
    simp [hs]

theorem chFold_any (hs : List (List Char)) (ch : Bool) :
    chFold hs ch = (ch || hasChunkedTE hs) := by
  induction hs generalizing ch with
  | nil => simp [chFold, hasChunkedTE]
  | cons h t ih =>
    show chFold t (chStep ch h) = _
    rw [ih, chStep_or]
    simp [hasChunkedTE, Bool.or_assoc]

theorem readHeadersCore_lines (hs : List (List Char)) (rest : List Char)
    (hl : ∀ h ∈ hs, '\n' ∉ h ∧ trimSpace h ≠ []) (fuel : Nat) (cl : Int) (ch : Bool)
    (hf : hs.length < fuel) :
    readHeadersCore fuel (linesStream hs ++ '\n' :: rest) cl ch =
      some (linesStream hs ++ ['\n'], clFold hs cl, chFold hs ch, rest) := by
  induction hs generalizing fuel cl ch with
  | nil =>
    cases fuel with
    | zero => omega
    | succ f =>
      rw [linesStream_nil]
      simp only [List.nil_append, readHeadersCore]
      have h1 : splitAtNewline ('\n' :: rest) = some (['\n'], rest) := by
        simp [splitAtNewline]
      rw [h1]
      have h2 : trimSpace ['\n'] = [] := by decide
      simp [h2, clFold, chFold]
  | cons h t ih =>
    obtain ⟨hnl, hts⟩ := hl h (List.mem_cons_self h t)
    have hlt : ∀ x ∈ t, '\n' ∉ x ∧ trimSpace x ≠ [] :=
      fun x hx => hl x (List.mem_cons_of_mem _ hx)
    cases fuel with
    | zero => omega
    | succ f =>
      have hstream : linesStream (h :: t) ++ '\n' :: rest =
          h ++ '\n' :: (linesStream t ++ '\n' :: rest) := by
        rw [linesStream_cons]
        simp [List.append_assoc]
      rw [hstream]
      simp only [readHeadersCore]
      rw [splitAtNewline_append h _ hnl]
      simp only
      rw [trimSpace_append_nl h]
      rw [if_neg hts]
      rw [ih hlt f _ _ (by simp only [List.length_cons] at hf; omega)]
      simp only [Option.some.injEq, Prod.mk.injEq]
      refine ⟨?_, ?_, ?_, trivial⟩
      · rw [linesStream_cons]
        simp [List.append_assoc]
      · show clFold t _ = clFold (h :: t) cl
        simp only [clFold, List.foldl_cons]
        rfl
      · show chFold t _ = chFold (h :: t) ch
        simp only [chFold, List.foldl_cons]
        rfl

theorem readHTTPResponse_lines (sl : List Char) (hs : List (List Char)) (rest : List Char)
    (hsl : '\n' ∉ sl) (hl : ∀ h ∈ hs, '\n' ∉ h ∧ trimSpace h ≠ []) :
    readHTTPResponse (sl ++ '\n' :: (linesStream hs ++ '\n' :: rest)) =
      (if hasChunkedTE hs then
        match readChunkedBody rest with
        | none => none
        | some (body, e) =>
          if e then some (.ok (headEcho sl hs))
          else some (.ok (headEcho sl hs ++ body))
      else if clFold hs (-1) > 0 then
        some (.ok (headEcho sl hs ++ rest.take (clFold hs (-1)).toNat))
      else some (.ok (headEcho sl hs))) := by
  unfold readHTTPResponse
  rw [splitAtNewline_append sl _ hsl]
  simp only
  have hfuel : hs.length < (linesStream hs ++ '\n' :: rest).length + 1 := by
    have := linesStream_length_ge hs
    simp only [List.length_append, List.length_cons]
    omega
  rw [readHeadersCore_lines hs rest hl _ (-1) false hfuel]
  simp only
  rw [chFold_any]
  simp only [Bool.false_or]
  by_cases hch : hasChunkedTE hs = true
  · rw [hch]
    simp only [if_true]
    cases hrc : readChunkedBody rest with
    | none => rfl
    | some p =>
      obtain ⟨body, e⟩ := p
      cases e
      · simp [headEcho, List.append_assoc]
      · simp [headEcho, List.append_assoc]
  · have hch' : hasChunkedTE hs = false := by simpa using hch
    rw [hch']
    simp only [Bool.false_eq_true, if_false]
    by_cases hcl : clFold hs (-1) > 0
    · rw [if_pos hcl, if_pos hcl]
      simp only [readFull]
      by_cases he : (rest.take (clFold hs (-1)).toNat).isEmpty
      · rw [List.isEmpty_iff] at he
        simp [he, headEcho, List.append_assoc]
      · have he' : (rest.take (clFold hs (-1)).toNat).isEmpty = false := by
          simpa using he
        simp [he', headEcho, List.append_assoc]
    · rw [if_neg hcl, if_neg hcl]
      simp [headEcho, List.append_assoc]

/-- C6: `readHTTPResponse` determines body framing exactly as claimed — for a
stream made of a status line, well-formed header lines and remaining bytes:
if some `Transfer-Encoding` header value contains the substring `chunked`
(case-insensitive), the body is read by chunked decoding of the remaining
bytes; otherwise, if the effective `Content-Length` (the last parseable
occurrence) is a positive integer, exactly that many body bytes are read, up
to stream end; otherwise no body bytes are read and the output is exactly the
status line and header echo. -/
theorem readHTTPResponse_framing (sl : List Char) (hs : List (List Char)) (rest : List Char)
    (hsl : '\n' ∉ sl) (hl : ∀ h ∈ hs, '\n' ∉ h ∧ trimSpace h ≠ []) :
    readHTTPResponse (sl ++ '\n' :: (linesStream hs ++ '\n' :: rest)) =
      (if hasChunkedTE hs then
        match readChunkedBody rest with
        | none => none
        | some (body, e) =>
          if e then some (.ok (headEcho sl hs))
          else some (.ok (headEcho sl hs ++ body))
      else if clFold hs (-1) > 0 then
        some (.ok (headEcho sl hs ++ rest.take (clFold hs (-1)).toNat))
      else some (.ok (headEcho sl hs))) :=
  readHTTPResponse_lines sl hs rest hsl hl

theorem readHTTPResponse_framing_witness :
    readHTTPResponse ("HTTP/1.1 200 OK\r".data ++ '\n' ::
        (linesStream ["Transfer-Encoding: chunked\r".data] ++ '\n' ::
          "3\r\nabc\r\n0\r\n\r\n".data)) =
      (if hasChunkedTE ["Transfer-Encoding: chunked\r".data] then
        match readChunkedBody "3\r\nabc\r\n0\r\n\r\n".data with
        | none => none
        | some (body, e) =>
          if e then
            some (.ok (headEcho "HTTP/1.1 200 OK\r".data ["Transfer-Encoding: chunked\r".data]))
          else
            some (.ok (headEcho "HTTP/1.1 200 OK\r".data ["Transfer-Encoding: chunked\r".data]
              ++ body))
      else if clFold ["Transfer-Encoding: chunked\r".data] (-1) > 0 then
        some (.ok (headEcho "HTTP/1.1 200 OK\r".data ["Transfer-Encoding: chunked\r".data]
          ++ ("3\r\nabc\r\n0\r\n\r\n".data).take
            (clFold ["Transfer-Encoding: chunked\r".data] (-1)).toNat))
      else
        some (.ok (headEcho "HTTP/1.1 200 OK\r".data ["Transfer-Encoding: chunked\r".data]))) :=
  readHTTPResponse_framing "HTTP/1.1 200 OK\r".data ["Transfer-Encoding: chunked\r".data]
    "3\r\nabc\r\n0\r\n\r\n".data (by decide) (by decide)

/-- C4 counterexample: a chunked response cut mid-chunk after the status line
and headers were read successfully.  The chunked decoder did read the two body
bytes `ab` before the cut (second conjunct), yet `readHTTPResponse` returns
only the status-line-and-headers echo, and the emitted per-slot record — while
indeed not a hard error and with the status code 200 populated — has an empty
body: the body bytes actually read before the cut are discarded, contradicting
the claim. -/
theorem readHTTPResponse_chunk_cut_counterexample :
    readHTTPResponse "HTTP/1.1 200 OK\r\nTransfer-Encoding: chunked\r\n\r\n3\r\nab".data =
      some (.ok "HTTP/1.1 200 OK\r\nTransfer-Encoding: chunked\r\n\r\n".data) ∧
    readChunkedBody "3\r\nab".data = some ("ab".data, true) ∧
    slotResult 2000 0
        (.responds "HTTP/1.1 200 OK\r\nTransfer-Encoding: chunked\r\n\r\n3\r\nab".data) =
      some ⟨0, 200, []⟩ := by
  decide

/-- C4 (amended): after a successfully read status line and headers, a body
read cut short never yields a hard error — but what is kept depends on the
framing.  Under `Content-Length` framing (no chunked `Transfer-Encoding`,
positive effective length, stream shorter than or equal to it) the record
keeps every body byte actually read.  Under chunked framing a decode cut
(`readChunkedBody` returning with its error flag set) discards the partial
body entirely: the output is exactly the status line and header echo. -/
theorem readHTTPResponse_cut_short (sl : List Char) (hs : List (List Char)) (rest : List Char)
    (hsl : '\n' ∉ sl) (hl : ∀ h ∈ hs, '\n' ∉ h ∧ trimSpace h ≠ []) :
    (hasChunkedTE hs = false → 0 < clFold hs (-1) → (rest.length : Int) ≤ clFold hs (-1) →
      readHTTPResponse (sl ++ '\n' :: (linesStream hs ++ '\n' :: rest)) =
        some (.ok (headEcho sl hs ++ rest))) ∧
    (hasChunkedTE hs = true → ∀ body, readChunkedBody rest = some (body, true) →
      readHTTPResponse (sl ++ '\n' :: (linesStream hs ++ '\n' :: rest)) =
        some (.ok (headEcho sl hs))) := by
  constructor
  · intro hch hcl hlen
    rw [readHTTPResponse_lines sl hs rest hsl hl, hch]
    simp only [Bool.false_eq_true, if_false]
    rw [if_pos hcl]
    have htk : rest.take (clFold hs (-1)).toNat = rest :=
      List.take_of_length_le (by omega)
    rw [htk]
  · intro hch body hbody
    rw [readHTTPResponse_lines sl hs rest hsl hl, hch]
    simp only [if_true]
    rw [hbody]
    simp

theorem readHTTPResponse_cut_short_witness :
    readHTTPResponse ("HTTP/1.1 200 OK\r".data ++ '\n' ::
        (linesStream ["Content-Length: 9\r".data] ++ '\n' :: "abc".data)) =
      some (.ok (headEcho "HTTP/1.1 200 OK\r".data ["Content-Length: 9\r".data]
        ++ "abc".data)) :=
  (readHTTPResponse_cut_short "HTTP/1.1 200 OK\r".data ["Content-Length: 9\r".data]
    "abc".data (by decide) (by decide)).1 (by decide) (by decide) (by decide)

/-- C10: request preparation is idempotent — a second pass of
`normalizeRawRequest` leaves its output unchanged, and a second pass of
`fixContentLength` leaves its output unchanged, for every input string. -/
theorem prepareRequest_idempotent (s : List Char) :
    normalizeRawRequest (normalizeRawRequest s) = normalizeRawRequest s ∧
    fixContentLength (fixContentLength s) = fixContentLength s :=
  ⟨normalizeRawRequest_fix _ (noBareLF_normalize s) (normalizeRawRequest_terminated s),
   fixContentLength_idem s⟩

end BurpRace
